import Mathlib

/-!
# n-tuple network with temporal-difference learning (`pattern.h`, `agent.h`)

A shallow embedding of the learning core of the Threes! agent: the `pattern`
feature with its eight isomorphic views and shared weight table, the
`weight_agent` ensemble with its binary persistence, and the `tdl_agent`
move selection and backward update.

Conventions of the embedding.

* `float` arithmetic is carried by a type parameter `W`.  Definitions only ask
  for the operations the source uses (`0`, `+`, `-`, `*`, `/`, the conversions
  from integers and `<`), theorems that need algebraic laws take `W` to be an
  exact number type.
* For persistence a `float` is its four-byte object representation
  (`float32`), so that "bit-identical" is plain equality.
* `std::vector` is `List`; an out-of-range `operator[]` (undefined behaviour in
  the source) reads the default `0` and writes nothing.
-/

namespace TCG

/-! ## The board interface -/

/-- Modelled from the spec: `board.h` is not among the sources.  The board is
the 4x4 grid of cell values addressed by a position `0..15`, together with the
attributes the placement policy reads (`last`, `hint`, `bag`). -/
structure board where
  /-- Cell values by position. -/
  tile : Fin 16 → Nat
  /-- Position category of the last placement. -/
  last : Nat := 0
  /-- Announced hint tile (`0` when there is none). -/
  hint : Nat := 0
  /-- Remaining bag count of each tile rank. -/
  bag : Nat → Nat := fun _ => 0

/-- Modelled from the spec: the default-constructed board `board()`, all cells
empty. -/
def board.empty : board := { tile := fun _ => 0 }

/-- Modelled from the spec: the reference board `board idx(start)` of the
pattern constructor, "whose cell at position p has value p". -/
def board.reference : board := { tile := fun q => q.val }

/-- Modelled from the spec: cell read access by position, `b(i)`.  A position
outside `0..15` is outside the grid; the embedding reads `0` there. -/
def board.at (b : board) (i : Nat) : Nat :=
  if h : i < 16 then b.tile ⟨i, h⟩ else 0

/-- Modelled from the spec: the position a horizontal reflection reads.  Row
`r`, column `c` takes the cell of row `r`, column `3 - c` (positions are
row-major, `4 * r + c`). -/
def mirror_pos (q : Fin 16) : Fin 16 :=
  ⟨4 * (q.val / 4) + (3 - q.val % 4), by omega⟩

/-- Modelled from the spec: the position one clockwise quarter turn reads.  Row
`r`, column `c` takes the cell of row `3 - c`, column `r`. -/
def turn_pos (q : Fin 16) : Fin 16 :=
  ⟨4 * (3 - q.val % 4) + q.val / 4, by omega⟩

/-- Modelled from the spec: `reflect_horizontal()`, the horizontal reflection
of the grid. -/
def board.reflect_horizontal (b : board) : board :=
  { b with tile := fun q => b.tile (mirror_pos q) }

/-- Modelled from the spec: one quarter turn of the grid (clockwise). -/
def board.rotate_right (b : board) : board :=
  { b with tile := fun q => b.tile (turn_pos q) }

/-- Modelled from the spec: `rotate(r)`, a rotation by `r mod 4` quarter
turns. -/
def board.rotate (b : board) (r : Nat) : board :=
  Nat.iterate board.rotate_right (r % 4) b

/-- The board transform of view `i` as the pattern constructor applies it:
`if (i >= 4) idx.reflect_horizontal(); idx.rotate(i);`.  For `i` in `0..7`
these are the eight symmetry transforms, an optional horizontal reflection
followed by `i mod 4` quarter turns. -/
def board.transform (i : Nat) (b : board) : board :=
  (if 4 ≤ i then b.reflect_horizontal else b).rotate i

/-! ## pattern -/

/-- The constant `iso_level_`. -/
def iso_level_ : Nat := 8

/-- The data members of `class pattern`: the eight isomorphic position lists
and the weight table. -/
structure pattern (W : Type) where
  /-- `std::array<std::vector<board::cell>, iso_level_> isomorphism`. -/
  isomorphism : Fin 8 → List Nat
  /-- `std::vector<float> weight_`. -/
  weight_ : List W

/-- The default-constructed `pattern()`: empty views, empty table. -/
def pattern.default (W : Type) : pattern W :=
  { isomorphism := fun _ => [], weight_ := [] }

/-- The loop of the constructor that fills `isomorphism[i]`: for every tuple
position `t`, the value found at `t` in the transformed reference board. -/
def pattern.views (p : List Nat) : Fin 8 → List Nat :=
  fun i => p.map (fun t => (board.transform i.val board.reference).at t)

/-- The initialiser `weight_(1 << (p.size() << 2))`.  The literal `1` is an
`int`: the shift is only defined while the count is below the width of `int`
and the result is representable, that is for `p.size() <= 7`. -/
def pattern.table_size (psize : Nat) : Option Nat :=
  if psize <<< 2 < 31 then some (1 <<< (psize <<< 2)) else none

/-- The constructor `pattern(const std::vector<board::cell>& p)`.  It yields
no pattern when the table size is undefined or `assert(psize != 0)` fails. -/
def pattern.new (W : Type) [Zero W] (p : List Nat) : Option (pattern W) :=
  match pattern.table_size p.length with
  | none => none
  | some n =>
    if p.length ≠ 0 then
      some { isomorphism := pattern.views p, weight_ := List.replicate n 0 }
    else none

/-- The private `indexof`: packs the cells read at the positions of `p`, four
bits apart, `index |= b(p[i]) << (i << 2)`.  The shift is taken without
overflow, as it is for cells in `0..15` and a tuple of at most 7 positions. -/
def pattern.indexof (p : List Nat) (b : board) : Nat :=
  (List.range p.length).foldl
    (fun index i => index ||| (b.at (p.getD i 0) <<< (i <<< 2))) 0

/-- The method `estimate`: the sum of the table entries at the indices of the
eight views. -/
def pattern.estimate {W : Type} [Zero W] [Add W] (P : pattern W) (b : board) : W :=
  (List.finRange 8).foldl
    (fun value i => value + P.weight_.getD (pattern.indexof (P.isomorphism i) b) 0) 0

/-- The method `update`: adds `u / iso_level_` to the entry of every view in
turn and sums the entries as they stand right after each addition.  Returns
the pattern with its new table and the returned value. -/
def pattern.update {W : Type} [Zero W] [Add W] [Div W] [NatCast W]
    (P : pattern W) (b : board) (u : W) : pattern W × W :=
  let u_split := u / ((iso_level_ : Nat) : W)
  (List.finRange 8).foldl
    (fun (st : pattern W × W) i =>
      let index := pattern.indexof (st.1.isomorphism i) b
      let weight' := st.1.weight_.set index (st.1.weight_.getD index 0 + u_split)
      ({ st.1 with weight_ := weight' }, st.2 + weight'.getD index 0))
    (P, 0)

/-! ## weight_agent -/

/-- The method `weight_agent::estimate` on the pattern list `net`: the sum of
the estimates of the patterns, in list order. -/
def weight_agent.estimate {W : Type} [Zero W] [Add W] (net : List (pattern W)) (b : board) : W :=
  net.foldl (fun value p => value + p.estimate b) 0

/-- The method `weight_agent::update` on the pattern list `net`: every pattern
is updated in place with `u / net.size()`; returns the updated list and the
sum of the values the pattern updates return. -/
def weight_agent.update {W : Type} [Zero W] [Add W] [Div W] [NatCast W]
    (net : List (pattern W)) (b : board) (u : W) : List (pattern W) × W :=
  let u_split := u / ((net.length : Nat) : W)
  net.foldl
    (fun (st : List (pattern W) × W) p =>
      let r := p.update b u_split
      (st.1 ++ [r.1], st.2 + r.2))
    ([], 0)

/-! ## tdl_agent -/

/-- Modelled from the spec: `action.h` is not among the sources.  The action
result type: the no-op sentinel `action()`, `action::slide(op)` and
`action::place(pos, tile, hint)`. -/
inductive action where
  | noop : action
  | slide (op : Nat) : action
  | place (pos tile hint : Nat) : action
  deriving DecidableEq

/-- The trajectory record `tdl_agent::state`. -/
structure state (W : Type) where
  before : board
  after : board
  op : Nat
  reward : W
  value : W

/-- The value-initialised record `state()` pushed as the terminal sentinel:
default boards and zero `op`, `reward` and `value`. -/
def state.sentinel (W : Type) [Zero W] : state W :=
  { before := board.empty, after := board.empty, op := 0, reward := 0, value := 0 }

/-- The data members of `tdl_agent` the learning loop uses: the pattern list
`net` and the learning rate `alpha` of `weight_agent`, and the trajectory
`path_`. -/
structure tdl_agent (W : Type) where
  net : List (pattern W)
  alpha : W
  path_ : List (state W)

/-- The call `std::max_element(value, value + 4)`: the position of the first
largest element, found by one scan that moves on a strict `<` only. -/
def max_element {W : Type} [LT W] [DecidableRel (fun x y : W => x < y)]
    (value : Fin 4 → W) : Fin 4 :=
  [1, 2, 3].foldl (fun largest i => if value largest < value i then i else largest) 0

/-- The method `tdl_agent::take_action`.  The board's `slide` is a parameter
(`board.h` is not among the sources): `slide b op` is the board after
`b.slide(op)` and the reward it returns.  `ninf` is the local constant
`-std::numeric_limits<float>::max()`.  Returns the agent with the record
appended to `path_`, and the action. -/
def tdl_agent.take_action {W : Type} [Zero W] [Add W] [IntCast W] [LT W]
    [DecidableRel (fun x y : W => x < y)]
    (slide : board → Nat → board × Int) (ninf : W)
    (a : tdl_agent W) (before : board) : tdl_agent W × action :=
  let after : Fin 4 → board := fun i => (slide before i.val).1
  let reward : Fin 4 → Int := fun i => (slide before i.val).2
  let value : Fin 4 → W := fun i =>
    if reward i = -1 then ninf else ((reward i : Int) : W) + weight_agent.estimate a.net (after i)
  let max_value := max_element value
  if ninf < value max_value then
    let idx := max_value
    ({ a with path_ := a.path_ ++ [{ before := before, after := after idx, op := idx.val,
                                     reward := ((reward idx : Int) : W), value := value max_value }] },
      action.slide idx.val)
  else
    ({ a with path_ := a.path_ ++ [state.sentinel W] }, action.noop)

/-- The loop of `update_episode` after its initial `pop_back`: while `path_`
is not empty, take `move = path_.back()`, compute `error` and the new `exact`
through one `update`, and `pop_back`.  The last component lists the arguments
`(move.after, alpha * error)` of the calls to `update`, in call order. -/
def tdl_agent.update_episode_loop {W : Type} [Zero W] [Add W] [Sub W] [Mul W] [Div W] [NatCast W]
    (alpha : W) (net : List (pattern W)) (exact : W) (path_ : List (state W))
    (calls : List (board × W)) : List (pattern W) × W × List (state W) × List (board × W) :=
  if h : path_.length = 0 then (net, exact, path_, calls)
  else
    let move := path_.getLast (List.ne_nil_of_length_pos (Nat.pos_of_ne_zero h))
    let error := exact - (move.value - move.reward)
    let r := weight_agent.update net move.after (alpha * error)
    tdl_agent.update_episode_loop alpha r.1 (move.reward + r.2) path_.dropLast
      (calls ++ [(move.after, alpha * error)])
termination_by path_.length
decreasing_by
  simp only [List.length_dropLast]
  omega

/-- The method `tdl_agent::update_episode`: `exact = 0`, one `pop_back`, the
loop, then `path_.clear()`. -/
def tdl_agent.update_episode {W : Type} [Zero W] [Add W] [Sub W] [Mul W] [Div W] [NatCast W]
    (a : tdl_agent W) : tdl_agent W :=
  let r := tdl_agent.update_episode_loop a.alpha a.net 0 a.path_.dropLast []
  { a with net := r.1, path_ := [] }

/-- The calls to `update` that `update_episode` makes, in call order. -/
def tdl_agent.update_episode_calls {W : Type} [Zero W] [Add W] [Sub W] [Mul W] [Div W] [NatCast W]
    (a : tdl_agent W) : List (board × W) :=
  (tdl_agent.update_episode_loop a.alpha a.net 0 a.path_.dropLast []).2.2.2

/-- One step of the backward TD recurrence in the spec's words:
`error = exact - (record.value - record.reward)`, then
`exact = record.reward + update(record.after, alpha * error)`.  The state is
the pattern list, the running `exact` and the `update` calls made so far. -/
def td_step {W : Type} [Zero W] [Add W] [Sub W] [Mul W] [Div W] [NatCast W]
    (alpha : W) (acc : List (pattern W) × W × List (board × W)) (record : state W) :
    List (pattern W) × W × List (board × W) :=
  let error := acc.2.1 - (record.value - record.reward)
  let r := weight_agent.update acc.1 record.after (alpha * error)
  (r.1, record.reward + r.2, acc.2.2 ++ [(record.after, alpha * error)])

/-- The backward TD recurrence in the spec's words: starting from `exact = 0`,
one step per recorded move, from the last move to the first. -/
def td_backward {W : Type} [Zero W] [Add W] [Sub W] [Mul W] [Div W] [NatCast W]
    (alpha : W) (net : List (pattern W)) (moves : List (state W)) :
    List (pattern W) × W × List (board × W) :=
  moves.foldr (fun record acc => td_step alpha acc record) (net, 0, [])

/-! ## random_placer -/

/-- The position subsets `spaces[0..4]` set by the constructor of
`random_placer`. -/
def random_placer.spaces : List (List Nat) :=
  [[12, 13, 14, 15], [0, 4, 8, 12], [0, 1, 2, 3], [3, 7, 11, 15],
   [0, 1, 2, 3, 4, 5, 6, 7, 8, 9, 10, 11, 12, 13, 14, 15]]

/-- The two loops that fill `int bag[3]`: for `t = 1, 2, 3` in turn,
`after.bag(t)` copies of `t`. -/
def random_placer.fill_bag (after : board) : List Nat :=
  [1, 2, 3].flatMap (fun t => List.replicate (after.bag t) t)

/-- The read `bag[i]` of the local array `int bag[3]` holding `bag`: an index
outside the filled part is outside what the code wrote, the read is undefined
and there is no value. -/
def random_placer.bag_read (bag : List Nat) (i : Int) : Option Nat :=
  if 0 ≤ i ∧ i < (bag.length : Int) then bag[i.toNat]? else none

/-- The body of the loop of `take_action` for an empty cell `pos`: fill and
shuffle the bag, draw the tile (the board's hint if it has one) and the new
hint from the end of the bag.  An access outside `int bag[3]`, a write of a
fourth tile or a read in front of the array, is undefined: there is no
result. -/
def random_placer.place_at (shuffle_bag : List Nat → List Nat)
    (after : board) (pos : Nat) : Option action :=
  let filled := random_placer.fill_bag after
  if 3 < filled.length then none
  else
    let bag := shuffle_bag filled
    let num : Int := (bag.length : Int)
    let tile_num : Option (Nat × Int) :=
      if after.hint ≠ 0 then some (after.hint, num)
      else (random_placer.bag_read bag (num - 1)).map (fun t => (t, num - 1))
    match tile_num with
    | none => none
    | some (tile, num') =>
      match random_placer.bag_read bag (num' - 1) with
      | none => none
      | some hint => some (action.place pos tile hint)

/-- The loop `for (int pos : space)` of `take_action`: skip the cells that are
not empty, place at the first empty one, and return `action()` when the
candidates are used up. -/
def random_placer.place_loop (shuffle_bag : List Nat → List Nat)
    (after : board) : List Nat → Option action
  | [] => some action.noop
  | pos :: rest =>
    if after.at pos ≠ 0 then random_placer.place_loop shuffle_bag after rest
    else random_placer.place_at shuffle_bag after pos

/-- The method `random_placer::take_action`.  The two `std::shuffle` calls are
the parameters `shuffle_space` and `shuffle_bag`; `none` is an access outside
`spaces[5]` or outside `int bag[3]`, where the source has no defined
result. -/
def random_placer.take_action (shuffle_space shuffle_bag : List Nat → List Nat)
    (after : board) : Option action :=
  match random_placer.spaces[after.last]? with
  | none => none
  | some space =>
    random_placer.place_loop shuffle_bag after (shuffle_space space)

/-! ## Persistence

Streams are byte sequences.  The host is taken to be little-endian, so the
object representation of an unsigned integer is its bytes from the least
significant one. -/

/-- One `char` of a string or of a stream. -/
abbrev byte := Fin 256

/-- A `float` as it is stored: the four bytes of its object representation. -/
structure float32 where
  b0 : byte
  b1 : byte
  b2 : byte
  b3 : byte
  deriving DecidableEq

/-- The value `0.0f`, all bits zero. -/
instance : Zero float32 := ⟨⟨0, 0, 0, 0⟩⟩

/-- The four bytes of a stored `float`. -/
def float32.bytes (x : float32) : List byte := [x.b0, x.b1, x.b2, x.b3]

/-- The memory of `weight_.data()`: the bytes of the table, entry by entry. -/
def table_bytes (w : List float32) : List byte := w.flatMap float32.bytes

/-- The table held by a memory of whole `float`s. -/
def table_of_bytes : List byte → List float32
  | b0 :: b1 :: b2 :: b3 :: rest => ⟨b0, b1, b2, b3⟩ :: table_of_bytes rest
  | _ => []

/-- The object representation, `width` bytes, of the unsigned integer
`n mod 256 ^ width`. -/
def le_bytes : Nat → Nat → List byte
  | 0, _ => []
  | width + 1, n => ⟨n % 256, Nat.mod_lt n (by decide)⟩ :: le_bytes width (n / 256)

/-- The unsigned integer whose object representation the bytes are. -/
def le_value (bs : List byte) : Nat :=
  bs.foldr (fun b acc => b.val + 256 * acc) 0

/-- The character as a `char` of a narrow string. -/
def ascii (c : Char) : byte := ⟨c.toNat % 256, Nat.mod_lt _ (by decide)⟩

/-- The call `std::to_string(n)`: the decimal digits of `n`. -/
def to_string (n : Nat) : List byte := (Nat.toDigits 10 n).map ascii

/-- The method `nameof`: every element of `p` written to a `std::hex` stream,
nothing in between. -/
def pattern.nameof (p : List Nat) : List byte :=
  p.flatMap (fun t => (Nat.toDigits 16 t).map ascii)

/-- The method `name`: the size of view 0, `"-tuple pattern "`, and `nameof`
of view 0. -/
def pattern.name {W : Type} (P : pattern W) : List byte :=
  to_string (P.isomorphism 0).length ++ "-tuple pattern ".toList.map ascii
    ++ pattern.nameof (P.isomorphism 0)

/-- The friend `operator<<`: appends to the stream the 32-bit name length, the
name, the 64-bit table size and the memory of the table. -/
def pattern.write (out : List byte) (p : pattern float32) : List byte :=
  let name := p.name
  let len := name.length % 2 ^ 32
  let out := out ++ le_bytes 4 len
  let out := out ++ name.take len
  let size := p.weight_.length % 2 ^ 64
  let out := out ++ le_bytes 8 size
  out ++ (table_bytes p.weight_).take ((4 * size) % 2 ^ 64)

/-- An input stream: the bytes not yet extracted and whether the stream is
still good (no `failbit`). -/
structure istream where
  buf : List byte
  good : Bool
  deriving DecidableEq

/-- The call `in.read(dst, n)` on a destination that holds the bytes `dst`:
returns what the destination holds afterwards and the stream.  A stream that
is not good extracts nothing; a stream with fewer than `n` bytes stores the
bytes it has and sets `failbit`. -/
def istream.read (s : istream) (n : Nat) (dst : List byte) : List byte × istream :=
  if s.good then
    if n ≤ s.buf.length then (s.buf.take n, { buf := s.buf.drop n, good := true })
    else (s.buf ++ dst.drop s.buf.length, { buf := [], good := false })
  else (dst, s)

/-- The call `v.resize(n)` of a vector: the first `n` elements, padded with
value-initialised ones. -/
def resize {α : Type} (v : List α) (n : Nat) (dflt : α) : List α :=
  v.take n ++ List.replicate (n - v.length) dflt

/-- The friend `operator>>`.  `Except.error p` is the failure of
`assert(name == p.name())`, with the pattern as it stands at the abort;
`Except.ok` is the normal return, with the stream and the pattern. -/
def pattern.read (inp : istream) (p : pattern float32) :
    Except (pattern float32) (istream × pattern float32) :=
  let r1 := inp.read 4 (le_bytes 4 0)
  let len := le_value r1.1
  let r2 := r1.2.read len (List.replicate len 0)
  let name := r2.1
  if name ≠ p.name then Except.error p
  else
    let r3 := r2.2.read 8 (le_bytes 8 0)
    let size := le_value r3.1
    let weight' := resize p.weight_ size 0
    let r4 := r3.2.read ((4 * size) % 2 ^ 64) (table_bytes weight')
    Except.ok (r4.2, { p with weight_ := table_of_bytes r4.1 })

/-- The method `save_weights` on a file that `is_open` or not: the bytes
written to the (truncated) file, or nothing at all. -/
def weight_agent.save_weights (is_open : Bool) (net : List (pattern float32)) :
    Option (List byte) :=
  if ¬ is_open then none
  else
    let size := net.length % 2 ^ 32
    let out := le_bytes 4 size
    some (net.foldl (fun out p => pattern.write out p) out)

/-- The character `s[k]`; past the end of the list it is the terminating
NUL. -/
def char_at (s : List Char) (k : Nat) : Char := s.getD k (Char.ofNat 0)

/-- The `while` loop that grows a palindrome around a centre: while
`front >= 0 && end <= arr_size` and `s[front/2] == s[end/2]`, add 2 to `len`,
move `front` down and `end` up by 2.  Returns `(front, end, len)` at the exit
or the `break`. -/
def longestPalindrome.expand (s : List Char) (arr_size : Int) (front end_ len : Int) :
    Int × Int × Int :=
  if h : 0 ≤ front ∧ end_ ≤ arr_size then
    if char_at s (front / 2).toNat = char_at s (end_ / 2).toNat then
      longestPalindrome.expand s arr_size (front - 2) (end_ + 2) (len + 2)
    else (front, end_, len)
  else (front, end_, len)
termination_by (front + 2).toNat
decreasing_by omega

/-- The copy loop `for (j = front + 2; j <= end - 2; j += 2)`:
`temp_ans[idx] = s[j/2]; idx++`. -/
def longestPalindrome.copy (s : List Char) (end_ : Int) (j : Int) (idx : Nat)
    (temp_ans : List Char) : List Char :=
  if j ≤ end_ - 2 then
    longestPalindrome.copy s end_ (j + 2) (idx + 1)
      (temp_ans.set idx (char_at s (j / 2).toNat))
  else temp_ans
termination_by (end_ - j).toNat
decreasing_by omega

/-- The loop `for (i = 0; i < arr_size; i++)` over the centres, on the state
`(max_len, temp_ans)`. -/
def longestPalindrome.scan (s : List Char) (arr_size : Int) (i : Int) (max_len : Int)
    (temp_ans : List Char) : Int × List Char :=
  if i < arr_size then
    let start : Int × Int × Int := if i % 2 = 0 then (i - 2, i + 2, 1) else (i - 1, i + 1, 0)
    let r := longestPalindrome.expand s arr_size start.1 start.2.1 start.2.2
    if r.2.2 > max_len then
      longestPalindrome.scan s arr_size (i + 1) r.2.2
        (longestPalindrome.copy s r.2.1 (r.1 + 2) 0 temp_ans)
    else longestPalindrome.scan s arr_size (i + 1) max_len temp_ans
  else (max_len, temp_ans)
termination_by (arr_size - i).toNat
decreasing_by all_goals omega

/-- The function `longestPalindrome`: the `max_len` characters of `temp_ans`
that are copied to `sub_ans` and printed. -/
def longestPalindrome (s : List Char) : List Char :=
  let arr_size : Int := 2 * (s.length : Int) - 1
  let temp_ans := (List.replicate s.length (Char.ofNat 0)).set 0 (char_at s 0)
  let r := longestPalindrome.scan s arr_size 0 1 temp_ans
  r.2.take r.1.toNat

/-! ## Auxiliary definitions for the proofs -/

/-- The position that view `i` reads for position `q`. -/
def view_pos (i : Nat) (q : Fin 16) : Fin 16 :=
  (if 4 ≤ i then mirror_pos else id) (Nat.iterate turn_pos (i % 4) q)

/-- The packing loop of `indexof` on the list of cell values read. -/
def pack (vals : List Nat) : Nat :=
  (List.range vals.length).foldl
    (fun index i => index ||| (vals.getD i 0 <<< (i <<< 2))) 0

/-- The cells a board shows at the tuple positions moved by `σ`. -/
def cells_via (σ : Fin 16 → Fin 16) (b : board) (p : List Nat) : List Nat :=
  p.map (fun t => if h : t < 16 then b.tile (σ ⟨t, h⟩) else 0)

/-- The indices of the eight views of a pattern on a board, in view order. -/
def view_indices {W : Type} (P : pattern W) (b : board) : List Nat :=
  (List.finRange 8).map (fun i => pattern.indexof (P.isomorphism i) b)

/-- The number `c(s)` of views whose index on the board is the slot `s`. -/
def view_count {W : Type} (P : pattern W) (b : board) (s : Nat) : Nat :=
  (view_indices P b).count s

/-- The table after adding `u_split` at every index of a list in turn. -/
def bump_all {W : Type} [Zero W] [Add W] (u_split : W) (w : List W) (idxs : List Nat) : List W :=
  idxs.foldl (fun w index => w.set index (w.getD index 0 + u_split)) w

/-- The array `value[]` of `take_action`: `ninf` for an operator whose slide
reports `-1`, else the reward plus the estimate of the afterstate. -/
def candidate_value {W : Type} [Zero W] [Add W] [IntCast W]
    (slide : board → Nat → board × Int) (ninf : W) (net : List (pattern W)) (before : board) :
    Fin 4 → W :=
  fun i => if (slide before i.val).2 = -1 then ninf
    else (((slide before i.val).2 : Int) : W) + weight_agent.estimate net (slide before i.val).1

/-- The record `take_action` appends when it selects operator `d`. -/
def move_record {W : Type} [Zero W] [Add W] [IntCast W]
    (slide : board → Nat → board × Int) (net : List (pattern W)) (before : board) (d : Fin 4) :
    state W :=
  { before := before, after := (slide before d.val).1, op := d.val,
    reward := (((slide before d.val).2 : Int) : W),
    value := (((slide before d.val).2 : Int) : W)
      + weight_agent.estimate net (slide before d.val).1 }

/-! ## The constructed agent and concrete inputs -/

/-- The value of `std::numeric_limits<float>::max()`, `(2 - 2^-23) * 2^127`,
as an exact number. -/
def FLT_MAX : ℚ := (2 ^ 24 - 1) * 2 ^ 104

/-- The four 6-tuples the constructor of `tdl_agent` puts into `net`. -/
def tdl_agent.tuples : List (List Nat) :=
  [[0, 1, 2, 3, 4, 5], [4, 5, 6, 7, 8, 9], [0, 1, 2, 4, 5, 6], [4, 5, 6, 8, 9, 10]]

/-- The constructor of `tdl_agent` (without `load_weights`): the four patterns
with their zero tables and an empty trajectory. -/
def tdl_agent.new (W : Type) [Zero W] (alpha : W) : Option (tdl_agent W) :=
  (tdl_agent.tuples.mapM (pattern.new W)).map
    (fun net => { net := net, alpha := alpha, path_ := [] })

/-- A board whose only non-empty cell is a tile of rank `1` at position `1`. -/
def board.single : board := { tile := fun q => if q = 1 then 1 else 0 }

/-- The pattern list of `tdl_agent` with loaded weights: all weights zero but
slot `16` of the first table, which holds `-FLT_MAX`. -/
def net_at_limit : List (pattern ℚ) :=
  [{ isomorphism := pattern.views [0, 1, 2, 3, 4, 5],
     weight_ := (List.replicate (16 ^ 6) 0).set 16 (-FLT_MAX) },
   { isomorphism := pattern.views [4, 5, 6, 7, 8, 9], weight_ := List.replicate (16 ^ 6) 0 },
   { isomorphism := pattern.views [0, 1, 2, 4, 5, 6], weight_ := List.replicate (16 ^ 6) 0 },
   { isomorphism := pattern.views [4, 5, 6, 8, 9, 10], weight_ := List.replicate (16 ^ 6) 0 }]

/-- A slide on which operators `0` and `1` are legal, both yielding
`board.single` with reward `0`; operators `2` and `3` report `-1`. -/
def slide_two_legal : board → Nat → board × Int :=
  fun b op => if op ≤ 1 then (board.single, 0) else (b, -1)

/-- A slide on which no operator is legal. -/
def slide_none_legal : board → Nat → board × Int :=
  fun b _ => (b, -1)

/-- An afterstate with every cell empty, no hint tile, position category `4`
and one tile of each rank in the bag. -/
def board.start : board := { tile := fun _ => 0, last := 4, hint := 0, bag := fun _ => 1 }

/-- The pattern of the 1-tuple `{0}` after learning: the last of its 16 stored
weights has the bytes `1, 2, 3, 4`. -/
def pattern_trained : pattern float32 :=
  { isomorphism := pattern.views [0], weight_ := List.replicate 15 0 ++ [⟨1, 2, 3, 4⟩] }

/-- The pattern after a sequence of `update` calls, given by their arguments
in call order. -/
def pattern.updates {W : Type} [Zero W] [Add W] [Div W] [NatCast W]
    (P : pattern W) (calls : List (board × W)) : pattern W :=
  calls.foldl (fun P call => (P.update call.1 call.2).1) P

/-- The pattern list the constructor of `tdl_agent` builds: the four 6-tuple
patterns with their zero tables of `16 ^ 6` weights. -/
def net_fresh : List (pattern ℚ) :=
  tdl_agent.tuples.map
    (fun p => { isomorphism := pattern.views p, weight_ := List.replicate (16 ^ 6) 0 })

/-- The lowercase hexadecimal digit of a value in `0..15`, in the spec's
words. -/
def hex_digit (t : Nat) : Char := "0123456789abcdef".toList.getD t '?'

/-- The name of the pattern of tuple `p` in the spec's words: the decimal
rendering of the tuple length, `"-tuple pattern "`, and one lowercase
hexadecimal digit per position, in tuple order. -/
def name_spec (p : List Nat) : String :=
  toString p.length ++ "-tuple pattern " ++ String.mk (p.map hex_digit)

/-- The `m` characters of `s` from position `x` read the same forwards and
backwards. -/
def pal_at (s : List Char) (x m : Nat) : Prop :=
  ∀ d, d < m → char_at s (x + d) = char_at s (x + m - 1 - d)

/-- The state of the centre loop before centre `i`: `temp_ans` starts with a
palindrome of `s` of length `max_len`, the longest among the palindromes of the
centres seen so far and strictly longer than those of earlier centres. -/
def scan_inv (s : List Char) (i : Nat) (max_len : Int) (temp : List Char) : Prop :=
  ∃ lo len : Nat, max_len = (len : Int) ∧ 1 ≤ len ∧ lo + len ≤ s.length ∧
    temp.length = s.length ∧ 2 * lo + len ≤ i + 1 ∧
    (∀ d, d < len → temp.getD d (Char.ofNat 0) = char_at s (lo + d)) ∧
    pal_at s lo len ∧
    (∀ x m, 1 ≤ m → x + m ≤ s.length → 2 * x + m < i + 1 → pal_at s x m → m ≤ len) ∧
    (∀ x m, 1 ≤ m → x + m ≤ s.length → 2 * x + m < 2 * lo + len → pal_at s x m → m < len)

/-! ## The arithmetic of `float`

The weights, the totals of `take_action` and the sentinel `ninf` are of the
type `float`, IEEE 754 binary32 with rounding to nearest, ties to even. -/

/-- A value of the type `float`: a finite number given by its sign and its
magnitude (the two zeros are `finite false 0` and `finite true 0`), an
infinity, or a NaN.  The operations below yield representable magnitudes
only. -/
inductive binary32 where
  | finite (negative : Bool) (magnitude : ℚ)
  | inf (negative : Bool)
  | nan

/-- The magnitude `m ≥ 0` rounded to binary32 with an unbounded exponent range
above: the nearest multiple of the quantum `2 ^ (e - 23)`, where `e` is the
exponent of `m` and at least `-126`; a tie goes to the even multiple. -/
def binary32.round (m : ℚ) : ℚ :=
  if m = 0 then 0
  else
    let e : Int := max (Int.log 2 m) (-126)
    let quantum : ℚ := 2 ^ (e - 23)
    let f : Int := Int.floor (m / quantum)
    let rest : ℚ := m / quantum - f
    let n : Int :=
      if rest < 1 / 2 then f
      else if 1 / 2 < rest then f + 1
      else if f % 2 = 0 then f else f + 1
    n * quantum

/-- The `float` nearest to the number of the given sign and magnitude; a
rounded magnitude above `FLT_MAX` overflows to the infinity of that sign. -/
def binary32.of_rat (negative : Bool) (m : ℚ) : binary32 :=
  if FLT_MAX < binary32.round m then binary32.inf negative
  else binary32.finite negative (binary32.round m)

/-- The number a finite `float` stands for (`0` for the others). -/
def binary32.value : binary32 → ℚ
  | binary32.finite negative m => if negative then -m else m
  | _ => 0

/-- The sum `x + y` of two `float`s. -/
def binary32.add : binary32 → binary32 → binary32
  | binary32.nan, _ => binary32.nan
  | _, binary32.nan => binary32.nan
  | binary32.inf s, binary32.inf t => if s = t then binary32.inf s else binary32.nan
  | binary32.inf s, binary32.finite _ _ => binary32.inf s
  | binary32.finite _ _, binary32.inf t => binary32.inf t
  | binary32.finite s m, binary32.finite t n =>
    let x : ℚ := (binary32.finite s m).value + (binary32.finite t n).value
    if x = 0 then binary32.finite (s && t) 0 else binary32.of_rat (decide (x < 0)) |x|

/-- The quotient `x / y` of two `float`s. -/
def binary32.div : binary32 → binary32 → binary32
  | binary32.nan, _ => binary32.nan
  | _, binary32.nan => binary32.nan
  | binary32.inf _, binary32.inf _ => binary32.nan
  | binary32.inf s, binary32.finite t _ => binary32.inf (xor s t)
  | binary32.finite s _, binary32.inf t => binary32.finite (xor s t) 0
  | binary32.finite s m, binary32.finite t n =>
    if n = 0 then (if m = 0 then binary32.nan else binary32.inf (xor s t))
    else binary32.of_rat (xor s t) (m / n)

/-- The comparison `x < y` of two `float`s: false whenever one of them is a
NaN. -/
def binary32.lt : binary32 → binary32 → Bool
  | binary32.nan, _ => false
  | _, binary32.nan => false
  | binary32.inf s, binary32.inf t => s && !t
  | binary32.inf s, binary32.finite _ _ => s
  | binary32.finite _ _, binary32.inf t => !t
  | binary32.finite s m, binary32.finite t n =>
    decide ((binary32.finite s m).value < (binary32.finite t n).value)

/-- The value `0.0f`. -/
instance : Zero binary32 := ⟨binary32.finite false 0⟩

instance : Add binary32 := ⟨binary32.add⟩

instance : Div binary32 := ⟨binary32.div⟩

/-- The conversion of an unsigned integer to `float`. -/
instance : NatCast binary32 := ⟨fun n => binary32.of_rat false (n : ℚ)⟩

/-- The conversion of an `int` to `float`. -/
instance : IntCast binary32 := ⟨fun z => binary32.of_rat (decide (z < 0)) |(z : ℚ)|⟩

instance : LT binary32 := ⟨fun x y => binary32.lt x y = true⟩

instance : DecidableRel (fun x y : binary32 => x < y) :=
  fun x y => inferInstanceAs (Decidable (binary32.lt x y = true))

/-- A `float` that is not a NaN. -/
def binary32.is_number : binary32 → Prop
  | binary32.nan => False
  | _ => True

/-- The local constant `ninf` of `take_action`,
`-std::numeric_limits<float>::max()`, as a `float`. -/
def ninf32 : binary32 := binary32.finite true FLT_MAX

/-- The pattern list of `tdl_agent` with loaded weights: all weights zero but
slot `16` of the first table, which holds a NaN. -/
def net_with_nan : List (pattern binary32) :=
  [{ isomorphism := pattern.views [0, 1, 2, 3, 4, 5],
     weight_ := (List.replicate (16 ^ 6) 0).set 16 binary32.nan },
   { isomorphism := pattern.views [4, 5, 6, 7, 8, 9], weight_ := List.replicate (16 ^ 6) 0 },
   { isomorphism := pattern.views [0, 1, 2, 4, 5, 6], weight_ := List.replicate (16 ^ 6) 0 },
   { isomorphism := pattern.views [4, 5, 6, 8, 9, 10], weight_ := List.replicate (16 ^ 6) 0 }]

/-- A slide on which operators `0` and `1` are legal: operator `0` yields
`board.single`, operator `1` the empty board, both with reward `0`; operators
`2` and `3` report `-1`. -/
def slide_two_boards : board → Nat → board × Int :=
  fun b op => if op = 0 then (board.single, 0) else if op = 1 then (board.empty, 0) else (b, -1)

/-- A pattern of the 1-tuple `[0]` whose table of `16` weights holds
`16777216 = 2 ^ 24` in slot `0` and zero elsewhere. -/
def pattern_large : pattern binary32 :=
  { isomorphism := pattern.views [0],
    weight_ := binary32.finite false (2 ^ 24) :: List.replicate 15 0 }

/-! ## Symmetry of the eight views -/

theorem iterate_rotate_right_tile (n : Nat) (c : board) (q : Fin 16) :
    (Nat.iterate board.rotate_right n c).tile q = c.tile (Nat.iterate turn_pos n q) := by
  induction n generalizing c with
  | zero => rfl
  | succ n ih =>
    rw [Function.iterate_succ_apply, ih, Function.iterate_succ_apply']
    rfl

theorem transform_tile (i : Nat) (b : board) (q : Fin 16) :
    (board.transform i b).tile q = b.tile (view_pos i q) := by
  unfold board.transform board.rotate view_pos
  rw [iterate_rotate_right_tile]
  split <;> rfl

theorem transform_at (i : Nat) (b : board) (t : Nat) (h : t < 16) :
    (board.transform i b).at t = b.tile (view_pos i ⟨t, h⟩) := by
  simp [board.at, h, transform_tile]

theorem views_at (i : Fin 8) (t : Nat) (h : t < 16) :
    (board.transform i.val board.reference).at t = (view_pos i.val ⟨t, h⟩).val := by
  rw [transform_at _ _ _ h]; rfl

theorem indexof_eq_pack (p : List Nat) (b : board) :
    pattern.indexof p b = pack (p.map b.at) := by
  unfold pattern.indexof pack
  rw [List.length_map]
  apply List.foldl_ext
  intro a i hi
  have hi' : i < p.length := List.mem_range.mp hi
  simp [List.getD_eq_getElem?_getD, hi']

theorem indexof_views (p : List Nat) (hp : ∀ t ∈ p, t < 16) (i : Fin 8) (b : board) :
    pattern.indexof (pattern.views p i) b = pack (cells_via (view_pos i.val) b p) := by
  rw [indexof_eq_pack]
  congr 1
  unfold pattern.views cells_via
  rw [List.map_map]
  apply List.map_congr_left
  intro t ht
  have h := hp t ht
  simp only [Function.comp_apply, views_at i t h, h, dite_true]
  simp [board.at]

theorem indexof_views_transform (p : List Nat) (hp : ∀ t ∈ p, t < 16) (i : Fin 8)
    (j : Nat) (b : board) :
    pattern.indexof (pattern.views p i) (board.transform j b)
      = pack (cells_via (view_pos j ∘ view_pos i.val) b p) := by
  rw [indexof_views p hp]
  congr 1
  unfold cells_via
  apply List.map_congr_left
  intro t ht
  simp [hp t ht, transform_tile]

theorem foldl_add_eq_sum {W ι : Type} [AddCommMonoid W] (g : ι → W) (l : List ι) (a : W) :
    l.foldl (fun value i => value + g i) a = a + (l.map g).sum := by
  induction l generalizing a with
  | nil => simp
  | cons x xs ih => simp [ih, add_assoc]

set_option maxRecDepth 100000 in
theorem view_pos_closed : ∀ j : Fin 8,
    List.Perm ((List.finRange 8).map (fun i : Fin 8 => view_pos j.val ∘ view_pos i.val))
      ((List.finRange 8).map (fun i : Fin 8 => view_pos i.val)) := by
  decide

theorem estimate_transform {W : Type} [AddCommMonoid W] (p : List Nat)
    (hp : ∀ t ∈ p, t < 16) (w : List W) (b : board) (j : Fin 8) :
    pattern.estimate { isomorphism := pattern.views p, weight_ := w } (board.transform j.val b)
      = pattern.estimate { isomorphism := pattern.views p, weight_ := w } b := by
  unfold pattern.estimate
  rw [foldl_add_eq_sum, foldl_add_eq_sum]
  congr 1
  have h1 : (List.finRange 8).map (fun i : Fin 8 =>
        w.getD (pattern.indexof (pattern.views p i) (board.transform j.val b)) 0)
      = ((List.finRange 8).map (fun i : Fin 8 => view_pos j.val ∘ view_pos i.val)).map
          (fun σ => w.getD (pack (cells_via σ b p)) 0) := by
    rw [List.map_map]
    apply List.map_congr_left
    intro i _
    simp [indexof_views_transform p hp]
  have h2 : (List.finRange 8).map (fun i : Fin 8 =>
        w.getD (pattern.indexof (pattern.views p i) b) 0)
      = ((List.finRange 8).map (fun i : Fin 8 => view_pos i.val)).map
          (fun σ => w.getD (pack (cells_via σ b p)) 0) := by
    rw [List.map_map]
    apply List.map_congr_left
    intro i _
    simp [indexof_views p hp]
  rw [h1, h2]
  exact ((view_pos_closed j).map _).sum_eq

theorem transform_of_reflect_rotate (m : Bool) (r : Nat) (b : board) :
    (if m then b.reflect_horizontal else b).rotate r
      = board.transform ((if m then 4 else 0) + r % 4) b := by
  unfold board.transform board.rotate
  cases m
  · have h : ¬ (4 ≤ r % 4) := by omega
    simp [h]
  · simp

/-- C1: symmetry invariance of `estimate`.  For a pattern whose views were built
from a tuple of positions in `0..15`, any weight table of exact numbers, any
board and any of the eight symmetry transforms (an optional horizontal
reflection followed by `r` quarter turns), the estimate of the transformed
board equals the estimate of the board. -/
theorem estimate_symmetry_invariant {W : Type} [AddCommMonoid W] (p : List Nat)
    (hp : ∀ t ∈ p, t < 16) (w : List W) (b : board) (m : Bool) (r : Nat) :
    pattern.estimate { isomorphism := pattern.views p, weight_ := w }
        ((if m then b.reflect_horizontal else b).rotate r)
      = pattern.estimate { isomorphism := pattern.views p, weight_ := w } b := by
  rw [transform_of_reflect_rotate]
  have hj : (if m then 4 else 0) + r % 4 < 8 := by cases m <;> simp <;> omega
  exact estimate_transform p hp w b ⟨_, hj⟩
/-! ## Index packing -/

theorem pack_append_singleton (vals : List Nat) (x : Nat) :
    pack (vals ++ [x]) = pack vals ||| (x <<< (vals.length <<< 2)) := by
  unfold pack
  rw [List.length_append, List.length_singleton, List.range_succ, List.foldl_append]
  simp only [List.foldl_cons, List.foldl_nil]
  congr 1
  · apply List.foldl_ext
    intro a i hi
    have hi' : i < vals.length := List.mem_range.mp hi
    simp [List.getD_eq_getElem?_getD, List.getElem?_append_left hi']
  · simp [List.getD_eq_getElem?_getD]

theorem pack_lt (vals : List Nat) (h : ∀ v ∈ vals, v < 16) :
    pack vals < 16 ^ vals.length := by
  induction vals using List.reverseRecOn with
  | nil => simp [pack]
  | append_singleton vals x ih =>
    rw [pack_append_singleton]
    have h1 : pack vals < 16 ^ vals.length := ih (fun v hv => h v (by simp [hv]))
    have hx : x < 16 := h x (by simp)
    have e16 : (16 : Nat) ^ (vals.length + 1) = 2 ^ (4 * (vals.length + 1)) := by
      rw [pow_mul]; norm_num
    rw [List.length_append, List.length_singleton, e16]
    apply Nat.or_lt_two_pow
    · calc pack vals < 16 ^ vals.length := h1
        _ = 2 ^ (4 * vals.length) := by rw [pow_mul]; norm_num
        _ ≤ 2 ^ (4 * (vals.length + 1)) := Nat.pow_le_pow_right (by norm_num) (by omega)
    · rw [Nat.shiftLeft_eq, Nat.shiftLeft_eq]
      calc x * 2 ^ (vals.length * 2 ^ 2) < 16 * 2 ^ (vals.length * 2 ^ 2) :=
            Nat.mul_lt_mul_of_pos_right hx (by positivity)
        _ = 2 ^ (4 * (vals.length + 1)) := by
            rw [show 4 * (vals.length + 1) = 4 + vals.length * 2 ^ 2 by ring, pow_add]; norm_num

theorem indexof_views_lt (p : List Nat) (hp : ∀ t ∈ p, t < 16) (i : Fin 8) (b : board)
    (hb : ∀ q, b.tile q < 16) :
    pattern.indexof (pattern.views p i) b < 16 ^ p.length := by
  rw [indexof_views p hp]
  have h := pack_lt (cells_via (view_pos i.val) b p) (by
    intro v hv
    unfold cells_via at hv
    obtain ⟨t, _, rfl⟩ := List.mem_map.mp hv
    split
    · exact hb _
    · norm_num)
  simpa [cells_via] using h
/-! ## The effect of `update` on the shared table -/

theorem update_fold_fst {W : Type} [Zero W] [Add W] (us : W) (b : board)
    (l : List (Fin 8)) (st : pattern W × W) :
    (l.foldl (fun (st : pattern W × W) i =>
        let index := pattern.indexof (st.1.isomorphism i) b
        let weight' := st.1.weight_.set index (st.1.weight_.getD index 0 + us)
        ({ st.1 with weight_ := weight' }, st.2 + weight'.getD index 0)) st).1
      = { isomorphism := st.1.isomorphism,
          weight_ := bump_all us st.1.weight_
            (l.map (fun i => pattern.indexof (st.1.isomorphism i) b)) } := by
  induction l generalizing st with
  | nil => rfl
  | cons i l ih =>
    rw [List.foldl_cons, ih]
    rfl

theorem update_fst {W : Type} [Zero W] [Add W] [Div W] [NatCast W]
    (P : pattern W) (b : board) (u : W) :
    (P.update b u).1 = ({ isomorphism := P.isomorphism, weight_ := bump_all (u / ((iso_level_ : Nat) : W)) P.weight_ (view_indices P b) } : pattern W) := by
  unfold pattern.update
  exact update_fold_fst _ b _ (P, 0)

theorem bump_all_length {W : Type} [Zero W] [Add W] (us : W) (idxs : List Nat) (w : List W) :
    (bump_all us w idxs).length = w.length := by
  induction idxs generalizing w with
  | nil => rfl
  | cons x xs ih =>
    show (bump_all us (w.set x (w.getD x 0 + us)) xs).length = w.length
    rw [ih, List.length_set]

theorem bump_all_getD {W : Type} [Field W]
    (us : W) (idxs : List Nat) (w : List W) (s : Nat) (hs : s < w.length) :
    (bump_all us w idxs).getD s 0 = w.getD s 0 + (idxs.count s : W) * us := by
  induction idxs generalizing w with
  | nil => simp [bump_all]
  | cons x xs ih =>
    show (bump_all us (w.set x (w.getD x 0 + us)) xs).getD s 0 = _
    rw [ih _ (by rw [List.length_set]; exact hs)]
    by_cases hx : x = s
    · subst hx
      simp [List.getD_eq_getElem?_getD, List.getElem?_set, hs]
      ring
    · have hx' : ¬ (x == s) = true := by simpa using hx
      simp [List.getD_eq_getElem?_getD, List.getElem?_set_ne hx, List.count_cons, hx']

theorem estimate_eq_sum {W : Type} [AddCommMonoid W] (P : pattern W) (b : board) :
    P.estimate b = ((view_indices P b).map (fun s => P.weight_.getD s 0)).sum := by
  unfold pattern.estimate view_indices
  rw [foldl_add_eq_sum, zero_add, List.map_map]
  rfl

theorem sum_map_add_mul {W : Type} [Field W] (f : Nat → W) (g : Nat → W) (c : W) (l : List Nat) :
    (l.map (fun s => f s + g s * c)).sum = (l.map f).sum + c * (l.map g).sum := by
  induction l with
  | nil => simp
  | cons x xs ih => simp [ih]; ring

theorem sum_count_nodup {W : Type} [Field W] (l : List Nat) (h : l.Nodup) :
    (l.map (fun s => (l.count s : W))).sum = (l.length : W) := by
  have : l.map (fun s => (l.count s : W)) = l.map (fun _ => (1 : W)) := by
    apply List.map_congr_left
    intro s hs
    rw [List.count_eq_one_of_mem h hs]; simp
  rw [this]; simp

/-- C2 (as amended): effect of `update` on the shared table, taking weights as
exact numbers (a field of characteristic zero).  For a pattern whose eight views
come from a tuple of positions in `0..15` and whose table has the constructed
size `16 ^ k`, a board with cells in `0..15` and a delta `u`: after
`update(b, u)` the table keeps its length, every slot `s` holds its old weight
plus `c(s) * (u / 8)` with `c(s)` the number of views whose index is `s`
(slots hit by no view are unchanged), the estimate of `b` afterwards is the old
estimate plus `(u / 8)` times the sum over the views of `c` at the view's
index, and that is the old estimate plus `u` when the eight indices are
pairwise distinct. -/
theorem update_effect {W : Type} [Field W] [CharZero W] (p : List Nat)
    (hp : ∀ t ∈ p, t < 16) (w : List W) (hw : w.length = 16 ^ p.length)
    (b : board) (hb : ∀ q, b.tile q < 16) (u : W) :
    let P : pattern W := { isomorphism := pattern.views p, weight_ := w }
    let P' := (P.update b u).1
    P'.weight_.length = w.length ∧
    (∀ s, s < w.length →
      P'.weight_.getD s 0 = w.getD s 0 + (view_count P b s : W) * (u / 8)) ∧
    (∀ s, s < w.length → view_count P b s = 0 → P'.weight_.getD s 0 = w.getD s 0) ∧
    P'.estimate b = P.estimate b
      + (u / 8) * ((view_indices P b).map (fun s => (view_count P b s : W))).sum ∧
    ((view_indices P b).Nodup → P'.estimate b = P.estimate b + u) := by
  intro P P'
  have hP' : P' = ({ isomorphism := P.isomorphism, weight_ := bump_all (u / 8) w (view_indices P b) } : pattern W) := by
    show (P.update b u).1 = _
    rw [update_fst]
    simp [iso_level_, P]
  have hslot : ∀ s, s < w.length →
      P'.weight_.getD s 0 = w.getD s 0 + (view_count P b s : W) * (u / 8) := by
    intro s hs
    rw [hP']
    exact bump_all_getD _ _ _ _ hs
  have hidx : ∀ s ∈ view_indices P b, s < w.length := by
    intro s hs
    obtain ⟨i, _, rfl⟩ := List.mem_map.mp hs
    rw [hw]
    exact indexof_views_lt p hp i b hb
  have hest : P'.estimate b = P.estimate b
      + (u / 8) * ((view_indices P b).map (fun s => (view_count P b s : W))).sum := by
    rw [estimate_eq_sum, estimate_eq_sum]
    have hvi : view_indices P' b = view_indices P b := by rw [hP']; rfl
    rw [hvi, ← sum_map_add_mul]
    congr 1
    apply List.map_congr_left
    intro s hs
    exact hslot s (hidx s hs)
  refine ⟨?_, hslot, ?_, hest, ?_⟩
  · rw [hP']; exact bump_all_length _ _ _
  · intro s hs hc
    rw [hslot s hs, hc]; simp
  · intro hnd
    rw [hest]
    have : ((view_indices P b).map (fun s => (view_count P b s : W))).sum = 8 := by
      have h := sum_count_nodup (W := W) (view_indices P b) hnd
      unfold view_count
      rw [h]
      simp [view_indices]
    rw [this]
    field_simp

theorem estimate_symmetry_invariant_witness :
    (∀ t ∈ [0, 1], t < 16) ∧
    pattern.estimate { isomorphism := pattern.views [0, 1], weight_ := List.replicate 256 (1 : ℚ) }
        ((if true then board.reference.reflect_horizontal else board.reference).rotate 1)
      = pattern.estimate { isomorphism := pattern.views [0, 1], weight_ := List.replicate 256 (1 : ℚ) }
          board.reference :=
  ⟨by decide, estimate_symmetry_invariant [0, 1] (by decide) _ board.reference true 1⟩

theorem update_effect_witness :
    (∀ t ∈ [0], t < 16) ∧ (List.replicate 16 (0 : ℚ)).length = 16 ^ [0].length ∧
    (∀ q, board.empty.tile q < 16) ∧
    ((pattern.update { isomorphism := pattern.views [0], weight_ := List.replicate 16 (0 : ℚ) }
        board.empty 1).1).weight_.length = (List.replicate 16 (0 : ℚ)).length :=
  ⟨by decide, by simp, fun q => by simp [board.empty],
    (update_effect [0] (by decide) (List.replicate 16 (0 : ℚ)) (by simp) board.empty
      (fun q => by simp [board.empty]) 1).1⟩
/-! ## The backward pass of `update_episode` -/

theorem update_episode_loop_nil {W : Type} [Zero W] [Add W] [Sub W] [Mul W] [Div W] [NatCast W]
    (alpha : W) (net : List (pattern W)) (exact : W) (calls : List (board × W)) :
    tdl_agent.update_episode_loop alpha net exact [] calls = (net, exact, [], calls) := by
  rw [tdl_agent.update_episode_loop]
  simp

theorem update_episode_loop_concat {W : Type} [Zero W] [Add W] [Sub W] [Mul W] [Div W] [NatCast W]
    (alpha : W) (net : List (pattern W)) (exact : W) (moves : List (state W)) (move : state W)
    (calls : List (board × W)) :
    tdl_agent.update_episode_loop alpha net exact (moves ++ [move]) calls
      = tdl_agent.update_episode_loop alpha
          (weight_agent.update net move.after (alpha * (exact - (move.value - move.reward)))).1
          (move.reward
            + (weight_agent.update net move.after (alpha * (exact - (move.value - move.reward)))).2)
          moves
          (calls ++ [(move.after, alpha * (exact - (move.value - move.reward)))]) := by
  rw [tdl_agent.update_episode_loop]
  simp

theorem update_episode_loop_eq_foldr {W : Type} [Zero W] [Add W] [Sub W] [Mul W] [Div W] [NatCast W]
    (alpha : W) (moves : List (state W)) (net : List (pattern W)) (exact : W)
    (calls : List (board × W)) :
    tdl_agent.update_episode_loop alpha net exact moves calls
      = ((moves.foldr (fun record acc => td_step alpha acc record) (net, exact, calls)).1,
         (moves.foldr (fun record acc => td_step alpha acc record) (net, exact, calls)).2.1,
         [],
         (moves.foldr (fun record acc => td_step alpha acc record) (net, exact, calls)).2.2) := by
  induction moves using List.reverseRecOn generalizing net exact calls with
  | nil => rw [update_episode_loop_nil]; rfl
  | append_singleton moves move ih =>
    rw [update_episode_loop_concat, ih, List.foldr_append]
    rfl

theorem td_backward_calls_length {W : Type} [Zero W] [Add W] [Sub W] [Mul W] [Div W] [NatCast W]
    (alpha : W) (moves : List (state W)) (acc : List (pattern W) × W × List (board × W)) :
    (moves.foldr (fun record acc => td_step alpha acc record) acc).2.2.length
      = acc.2.2.length + moves.length := by
  induction moves with
  | nil => rfl
  | cons m ms ih =>
    rw [List.foldr_cons]
    show ((List.foldr (fun record acc => td_step alpha acc record) acc ms).2.2 ++ [_]).length = _
    rw [List.length_append, ih]
    simp [Nat.add_assoc]

/-- C3: `update_episode` is the backward TD recurrence.  For a trajectory of `n`
recorded moves followed by the terminal sentinel, `update_episode` leaves the
pattern list that the recurrence `td_backward` yields (from `exact = 0`, one
step `error = exact - (value - reward)`, `exact = reward + update(after,
alpha * error)` per record, last move first), clears the trajectory, and makes
exactly `n` calls to `update`, those of the recurrence in the same order.  For
the two-move episode these are exactly two calls, with `exact` going `0`, then
`r2 + update(...)`, then `r1 + update(...)`. -/
theorem update_episode_backward_td {W : Type} [Zero W] [Add W] [Sub W] [Mul W] [Div W]
    [NatCast W] (alpha : W) (net : List (pattern W)) (moves : List (state W))
    (m1 m2 : state W) :
    let a : tdl_agent W := { net := net, alpha := alpha, path_ := moves ++ [state.sentinel W] }
    let a2 : tdl_agent W := { net := net, alpha := alpha, path_ := [m1, m2, state.sentinel W] }
    let u2 := weight_agent.update net m2.after (alpha * (0 - (m2.value - m2.reward)))
    let exact2 := m2.reward + u2.2
    let u1 := weight_agent.update u2.1 m1.after (alpha * (exact2 - (m1.value - m1.reward)))
    a.update_episode
        = { net := (td_backward alpha net moves).1, alpha := alpha, path_ := [] } ∧
    a.update_episode_calls = (td_backward alpha net moves).2.2 ∧
    a.update_episode_calls.length = moves.length ∧
    a2.update_episode = { net := u1.1, alpha := alpha, path_ := [] } ∧
    a2.update_episode_calls
        = [(m2.after, alpha * (0 - (m2.value - m2.reward))),
           (m1.after, alpha * (exact2 - (m1.value - m1.reward)))] := by
  intro a a2 u2 exact2 u1
  have hloop : ∀ ms : List (state W), tdl_agent.update_episode_loop alpha net 0 ms []
      = ((td_backward alpha net ms).1, (td_backward alpha net ms).2.1, [],
         (td_backward alpha net ms).2.2) := fun ms => update_episode_loop_eq_foldr alpha ms net 0 []
  have hupd : ∀ ms : List (state W),
      tdl_agent.update_episode { net := net, alpha := alpha, path_ := ms ++ [state.sentinel W] }
        = { net := (td_backward alpha net ms).1, alpha := alpha, path_ := [] } := by
    intro ms
    simp only [tdl_agent.update_episode, List.dropLast_concat, hloop]
  have hcalls : ∀ ms : List (state W),
      tdl_agent.update_episode_calls
          { net := net, alpha := alpha, path_ := ms ++ [state.sentinel W] }
        = (td_backward alpha net ms).2.2 := by
    intro ms
    simp only [tdl_agent.update_episode_calls, List.dropLast_concat, hloop]
  refine ⟨hupd moves, hcalls moves, ?_, ?_, ?_⟩
  · rw [hcalls]
    have := td_backward_calls_length alpha moves (net, (0 : W), [])
    simpa [td_backward] using this
  · exact hupd [m1, m2]
  · exact hcalls [m1, m2]

/-! ## Move selection in `take_action` -/

theorem take_action_eq {W : Type} [Zero W] [Add W] [IntCast W] [LT W]
    [DecidableRel (fun x y : W => x < y)]
    (slide : board → Nat → board × Int) (ninf : W) (a : tdl_agent W) (before : board) :
    a.take_action slide ninf before
      = if ninf < candidate_value slide ninf a.net before
            (max_element (candidate_value slide ninf a.net before)) then
          ({ a with path_ := a.path_ ++ [{ before := before, after := (slide before (max_element (candidate_value slide ninf a.net before)).val).1, op := (max_element (candidate_value slide ninf a.net before)).val, reward := (((slide before (max_element (candidate_value slide ninf a.net before)).val).2 : Int) : W), value := candidate_value slide ninf a.net before (max_element (candidate_value slide ninf a.net before)) }] },
            action.slide (max_element (candidate_value slide ninf a.net before)).val)
        else ({ a with path_ := a.path_ ++ [state.sentinel W] }, action.noop) := rfl

theorem candidate_value_legal {W : Type} [Zero W] [Add W] [IntCast W]
    (slide : board → Nat → board × Int) (ninf : W) (net : List (pattern W)) (before : board)
    (i : Fin 4) (h : (slide before i.val).2 ≠ -1) :
    candidate_value slide ninf net before i = (move_record slide net before i).value := by
  simp only [candidate_value, if_neg h, move_record]

theorem candidate_value_illegal {W : Type} [Zero W] [Add W] [IntCast W]
    (slide : board → Nat → board × Int) (ninf : W) (net : List (pattern W)) (before : board)
    (i : Fin 4) (h : (slide before i.val).2 = -1) :
    candidate_value slide ninf net before i = ninf := by
  simp only [candidate_value, if_pos h]

/-- The record and action `take_action` produces when no legal total is above
`ninf`. -/
theorem take_action_sentinel {W : Type} [LinearOrder W] [Zero W] [Add W] [IntCast W]
    (slide : board → Nat → board × Int) (ninf : W) (a : tdl_agent W) (before : board)
    (h : ∀ i : Fin 4, (slide before i.val).2 ≠ -1 →
      (move_record slide a.net before i).value ≤ ninf) :
    a.take_action slide ninf before
      = ({ a with path_ := a.path_ ++ [state.sentinel W] }, action.noop) := by
  have hle : ∀ i, candidate_value slide ninf a.net before i ≤ ninf := by
    intro i
    by_cases hc : (slide before i.val).2 = -1
    · rw [candidate_value_illegal _ _ _ _ _ hc]
    · rw [candidate_value_legal _ _ _ _ _ hc]; exact h i hc
  rw [take_action_eq, if_neg (not_lt.mpr (hle _))]

/-- The scan of `max_element` over values that `<` orders as a strict weak
order (irreflexive, transitive, and with every value comparable to the two ends
of a strict pair): no value is above the one found, and every value in front
of it is strictly below it. -/
theorem max_element_weak {W : Type} [LT W] [DecidableRel (fun x y : W => x < y)]
    (value : Fin 4 → W)
    (hirr : ∀ i, ¬ value i < value i)
    (htrans : ∀ i j k, value i < value j → value j < value k → value i < value k)
    (hcmp : ∀ i j k, value i < value k → value i < value j ∨ value j < value k) :
    (∀ i, ¬ value (max_element value) < value i) ∧
    (∀ i, i < max_element value → value i < value (max_element value)) := by
  have le_trans' : ∀ i j k, ¬ value j < value i → ¬ value k < value j → ¬ value k < value i := by
    intro i j k h1 h2 h3
    rcases hcmp k j i h3 with h | h
    · exact h2 h
    · exact h1 h
  have lt_of_le_of_lt' : ∀ i j k, ¬ value j < value i → value j < value k →
      value i < value k := by
    intro i j k h1 h2
    rcases hcmp j i k h2 with h | h
    · exact absurd h h1
    · exact h
  have le_of_lt' : ∀ i j, value i < value j → ¬ value j < value i :=
    fun i j h1 h2 => hirr i (htrans i j i h1 h2)
  have key : ∀ (l : List (Fin 4)) (m : Fin 4),
      (∀ i ∈ l, m < i) → l.Pairwise (· < ·) →
      let r := l.foldl (fun largest i => if value largest < value i then i else largest) m
      ¬ value r < value m ∧ (∀ i ∈ l, ¬ value r < value i) ∧
      (r = m ∨ (r ∈ l ∧ value m < value r)) ∧
      (∀ i ∈ l, i < r → value i < value r) := by
    intro l
    induction l with
    | nil => intro m _ _; simp [hirr]
    | cons x xs ih =>
      intro m hm hp
      have hx : m < x := hm x (by simp)
      have hxs : ∀ i ∈ xs, x < i := fun i hi => (List.pairwise_cons.mp hp).1 i hi
      have hp' := (List.pairwise_cons.mp hp).2
      simp only [List.foldl_cons]
      by_cases hc : value m < value x
      · rw [if_pos hc]
        obtain ⟨h1, h2, h3, h4⟩ := ih x hxs hp'
        refine ⟨le_trans' _ _ _ (le_of_lt' _ _ hc) h1, ?_, ?_, ?_⟩
        · intro i hi
          rcases List.mem_cons.mp hi with rfl | hi
          · exact h1
          · exact h2 i hi
        · right
          rcases h3 with h3 | ⟨h3, h3'⟩
          · exact ⟨by rw [h3]; simp, by rw [h3]; exact hc⟩
          · exact ⟨by simp [h3], htrans _ _ _ hc h3'⟩
        · intro i hi hlt
          rcases List.mem_cons.mp hi with rfl | hi
          · rcases h3 with h3 | ⟨_, h3'⟩
            · rw [h3] at hlt; exact absurd hlt (lt_irrefl _)
            · exact h3'
          · exact h4 i hi hlt
      · rw [if_neg hc]
        obtain ⟨h1, h2, h3, h4⟩ := ih m (fun i hi => lt_trans hx (hxs i hi)) hp'
        refine ⟨h1, ?_, ?_, ?_⟩
        · intro i hi
          rcases List.mem_cons.mp hi with rfl | hi
          · exact le_trans' _ _ _ hc h1
          · exact h2 i hi
        · rcases h3 with h3 | ⟨h3, h3'⟩
          · left; exact h3
          · right; exact ⟨by simp [h3], h3'⟩
        · intro i hi hlt
          rcases List.mem_cons.mp hi with rfl | hi
          · rcases h3 with h3 | ⟨_, h3'⟩
            · rw [h3] at hlt; exact absurd (lt_trans hx hlt) (lt_irrefl _)
            · exact lt_of_le_of_lt' _ _ _ hc h3'
          · exact h4 i hi hlt
  have h := key [1, 2, 3] 0 (by decide) (by decide)
  obtain ⟨h1, h2, h3, h4⟩ := h
  have hmem : ∀ i : Fin 4, i = 0 ∨ i ∈ ([1, 2, 3] : List (Fin 4)) := by decide
  constructor
  · intro i
    rcases hmem i with rfl | hi
    · exact h1
    · exact h2 i hi
  · intro i hlt
    rcases hmem i with rfl | hi
    · rcases h3 with h3 | ⟨_, h3'⟩
      · have : max_element value = 0 := h3
        rw [this] at hlt; exact absurd hlt (lt_irrefl _)
      · exact h3'
    · exact h4 i hi hlt

/-- C4 (as amended): move selection in `take_action`.  Let `number` be a class
of values that `<` orders as a strict weak order (for `float`: every value but
a NaN), holding the sentinel `ninf` and the total
`reward + estimate(afterstate)` of every legal operator (slide reward
different from `-1`).  When some legal operator has a total above `ninf`, the
returned action is `slide(d)` for the smallest operator index `d` whose total
is maximal among the legal operators (no legal total is above it, every legal
total of a smaller index is strictly below it), and the appended record is
`(before, afterstate(d), d, reward(d), that total)`. -/
theorem take_action_selects_first_maximum {W : Type} [LT W]
    [DecidableRel (fun x y : W => x < y)] [Zero W] [Add W] [IntCast W]
    (slide : board → Nat → board × Int) (ninf : W) (a : tdl_agent W) (before : board)
    (number : W → Prop)
    (hirr : ∀ x, number x → ¬ x < x)
    (htrans : ∀ x y z, number x → number y → number z → x < y → y < z → x < z)
    (hcmp : ∀ x y z, number x → number y → number z → x < z → x < y ∨ y < z)
    (hninf : number ninf)
    (htotal : ∀ i : Fin 4, (slide before i.val).2 ≠ -1 →
      number ((((slide before i.val).2 : Int) : W)
        + weight_agent.estimate a.net (slide before i.val).1))
    (h : ∃ i : Fin 4, (slide before i.val).2 ≠ -1 ∧
      ninf < (((slide before i.val).2 : Int) : W)
        + weight_agent.estimate a.net (slide before i.val).1) :
    ∃ d : Fin 4, (slide before d.val).2 ≠ -1 ∧
      (∀ i : Fin 4, (slide before i.val).2 ≠ -1 →
        ¬ (((slide before d.val).2 : Int) : W)
            + weight_agent.estimate a.net (slide before d.val).1
          < (((slide before i.val).2 : Int) : W)
            + weight_agent.estimate a.net (slide before i.val).1) ∧
      (∀ i : Fin 4, (slide before i.val).2 ≠ -1 → i < d →
        (((slide before i.val).2 : Int) : W) + weight_agent.estimate a.net (slide before i.val).1
          < (((slide before d.val).2 : Int) : W)
            + weight_agent.estimate a.net (slide before d.val).1) ∧
      (a.take_action slide ninf before).2 = action.slide d.val ∧
      (a.take_action slide ninf before).1.net = a.net ∧
      (a.take_action slide ninf before).1.path_
        = a.path_ ++ [{ before := before, after := (slide before d.val).1, op := d.val, reward := (((slide before d.val).2 : Int) : W), value := (((slide before d.val).2 : Int) : W) + weight_agent.estimate a.net (slide before d.val).1 }] := by
  have hnumv : ∀ i, number (candidate_value slide ninf a.net before i) := by
    intro i
    by_cases hc : (slide before i.val).2 = -1
    · rw [candidate_value_illegal _ _ _ _ _ hc]; exact hninf
    · rw [candidate_value_legal _ _ _ _ _ hc]; exact htotal i hc
  obtain ⟨hmax, hfirst⟩ := max_element_weak (candidate_value slide ninf a.net before)
    (fun i => hirr _ (hnumv i))
    (fun i j k => htrans _ _ _ (hnumv i) (hnumv j) (hnumv k))
    (fun i j k => hcmp _ _ _ (hnumv i) (hnumv j) (hnumv k))
  obtain ⟨i0, hleg0, hgt0⟩ := h
  have hbest : ninf < candidate_value slide ninf a.net before
      (max_element (candidate_value slide ninf a.net before)) := by
    have h0 : ninf < candidate_value slide ninf a.net before i0 := by
      rw [candidate_value_legal _ _ _ _ _ hleg0]; exact hgt0
    rcases hcmp _ _ _ hninf (hnumv (max_element (candidate_value slide ninf a.net before)))
      (hnumv i0) h0 with hl | hl
    · exact hl
    · exact absurd hl (hmax i0)
  have hlegd : (slide before (max_element (candidate_value slide ninf a.net before)).val).2 ≠ -1 := by
    intro hc
    rw [candidate_value_illegal _ _ _ _ _ hc] at hbest
    exact hirr _ hninf hbest
  have hvd := candidate_value_legal slide ninf a.net before _ hlegd
  have hres : a.take_action slide ninf before
      = ({ a with path_ := a.path_ ++ [move_record slide a.net before (max_element (candidate_value slide ninf a.net before))] },
         action.slide (max_element (candidate_value slide ninf a.net before)).val) := by
    rw [take_action_eq, if_pos hbest, hvd]
    rfl
  refine ⟨max_element (candidate_value slide ninf a.net before), hlegd, ?_, ?_,
    by rw [hres], by rw [hres], by rw [hres]; rfl⟩
  · intro i hi
    have := hmax i
    rw [candidate_value_legal slide ninf a.net before i hi, hvd] at this
    exact this
  · intro i hi hlt
    have := hfirst i hlt
    rw [candidate_value_legal slide ninf a.net before i hi, hvd] at this
    exact this

/-- C6: on a board where all four slide operators report `-1`, `take_action`
returns the no-op action and appends exactly one record, the sentinel, whose
reward and value are zero; the pattern list, the learning rate and the earlier
records are unchanged. -/
theorem take_action_no_legal_move {W : Type} [Preorder W]
    [DecidableRel (fun x y : W => x < y)] [Zero W] [Add W] [IntCast W]
    (slide : board → Nat → board × Int) (ninf : W) (a : tdl_agent W) (before : board)
    (h : ∀ i : Fin 4, (slide before i.val).2 = -1) :
    (a.take_action slide ninf before).2 = action.noop ∧
    (a.take_action slide ninf before).1.path_ = a.path_ ++ [state.sentinel W] ∧
    (state.sentinel W).reward = 0 ∧ (state.sentinel W).value = 0 ∧
    (a.take_action slide ninf before).1.net = a.net ∧
    (a.take_action slide ninf before).1.alpha = a.alpha := by
  have hval : candidate_value slide ninf a.net before
      (max_element (candidate_value slide ninf a.net before)) = ninf :=
    candidate_value_illegal slide ninf a.net before _ (h _)
  have hres : a.take_action slide ninf before
      = ({ a with path_ := a.path_ ++ [state.sentinel W] }, action.noop) := by
    rw [take_action_eq, hval, if_neg (lt_irrefl ninf)]
  rw [hres]
  exact ⟨rfl, rfl, rfl, rfl, rfl, rfl⟩

theorem take_action_no_legal_move_witness :
    (∀ i : Fin 4, (slide_none_legal board.empty i.val).2 = -1) ∧
    (tdl_agent.take_action slide_none_legal (-FLT_MAX)
      { net := net_at_limit, alpha := 1 / 10, path_ := [] } board.empty).2 = action.noop :=
  ⟨fun _ => rfl,
    (take_action_no_legal_move slide_none_legal (-FLT_MAX)
      { net := net_at_limit, alpha := 1 / 10, path_ := [] } board.empty (fun _ => rfl)).1⟩

/-! ### Concrete evaluations at the sentinel value -/

theorem getD_replicate_zero {W : Type} [Zero W] (n t : Nat) :
    (List.replicate n (0 : W)).getD t 0 = 0 := by
  rw [List.getD_eq_getElem?_getD, List.getElem?_replicate]
  split <;> rfl

theorem getD_set_replicate {W : Type} [Zero W] (n s t : Nat) (x : W) (hs : s < n) :
    ((List.replicate n (0 : W)).set s x).getD t 0 = if t = s then x else 0 := by
  rw [List.getD_eq_getElem?_getD, List.getElem?_set]
  by_cases hts : s = t
  · subst hts
    simp [hs]
  · rw [if_neg hts, if_neg (fun h => hts h.symm), List.getElem?_replicate]
    split <;> rfl

theorem estimate_zero_table {W : Type} [AddCommMonoid W] (iso : Fin 8 → List Nat) (n : Nat)
    (b : board) :
    pattern.estimate { isomorphism := iso, weight_ := List.replicate n (0 : W) } b = 0 := by
  rw [estimate_eq_sum]
  simp only [getD_replicate_zero]
  simp

theorem view_indices_single :
    view_indices ({ isomorphism := pattern.views [0, 1, 2, 3, 4, 5], weight_ := [] } : pattern ℚ)
      board.single = [16, 0, 0, 0, 256, 0, 0, 65536] := by
  decide

theorem estimate_net_at_limit : weight_agent.estimate net_at_limit board.single = -FLT_MAX := by
  have hvi : view_indices ({ isomorphism := pattern.views [0, 1, 2, 3, 4, 5], weight_ := (List.replicate (16 ^ 6) 0).set 16 (-FLT_MAX) } : pattern ℚ) board.single
      = [16, 0, 0, 0, 256, 0, 0, 65536] := view_indices_single
  have h1 : pattern.estimate ({ isomorphism := pattern.views [0, 1, 2, 3, 4, 5], weight_ := (List.replicate (16 ^ 6) 0).set 16 (-FLT_MAX) } : pattern ℚ) board.single
      = -FLT_MAX := by
    rw [estimate_eq_sum, hvi]
    simp only [List.map_cons, List.map_nil, getD_set_replicate (16 ^ 6) 16 _ (-FLT_MAX) (by norm_num)]
    norm_num
  simp only [weight_agent.estimate, net_at_limit, List.foldl_cons, List.foldl_nil, h1,
    estimate_zero_table]
  norm_num

theorem le_bytes_length (width n : Nat) : (le_bytes width n).length = width := by
  induction width generalizing n with
  | zero => rfl
  | succ w ih => simp [le_bytes, ih]

theorem le_value_le_bytes (width n : Nat) : le_value (le_bytes width n) = n % 256 ^ width := by
  induction width generalizing n with
  | zero => simp [le_bytes, le_value, Nat.mod_one]
  | succ w ih =>
    have h := ih (n / 256)
    unfold le_value at h
    show n % 256 + 256 * (le_bytes w (n / 256)).foldr (fun b acc => b.val + 256 * acc) 0 = _
    rw [h, pow_succ', Nat.mod_mul]

theorem le_value_le_bytes_of_lt (width n : Nat) (h : n < 256 ^ width) :
    le_value (le_bytes width n) = n := by
  rw [le_value_le_bytes, Nat.mod_eq_of_lt h]

theorem table_bytes_length (w : List float32) : (table_bytes w).length = 4 * w.length := by
  induction w with
  | nil => rfl
  | cons x xs ih =>
    show (float32.bytes x ++ table_bytes xs).length = _
    rw [List.length_append, ih]
    simp [float32.bytes]
    omega

theorem table_of_bytes_table_bytes (w : List float32) : table_of_bytes (table_bytes w) = w := by
  induction w with
  | nil => rfl
  | cons x xs ih =>
    show table_of_bytes (float32.bytes x ++ table_bytes xs) = _
    simp [float32.bytes, table_of_bytes, ih]

theorem read_exact (front back dst : List byte) (n : Nat) (h : front.length = n) :
    istream.read { buf := front ++ back, good := true } n dst
      = (front, { buf := back, good := true }) := by
  subst h
  simp [istream.read]

/-! ## Persistence: the name of a constructed pattern -/

theorem new_spec {W : Type} [Zero W] (p : List Nat) (Q : pattern W)
    (h : pattern.new W p = some Q) :
    Q.isomorphism = pattern.views p ∧ Q.weight_ = List.replicate (16 ^ p.length) 0 ∧
      0 < p.length ∧ p.length ≤ 7 := by
  unfold pattern.new pattern.table_size at h
  by_cases hk : p.length <<< 2 < 31
  · rw [if_pos hk] at h
    by_cases h0 : p.length ≠ 0
    · simp only [if_pos h0, Option.some.injEq] at h
      subst h
      rw [Nat.shiftLeft_eq] at hk
      refine ⟨rfl, ?_, Nat.pos_of_ne_zero h0, by omega⟩
      simp only [Nat.shiftLeft_eq, one_mul]
      rw [show (16 : Nat) = 2 ^ 4 by norm_num, ← pow_mul, Nat.mul_comm]
    · simp [h0] at h
  · simp [hk] at h

theorem views_lt (p : List Nat) (i : Fin 8) : ∀ t ∈ pattern.views p i, t < 16 := by
  intro t ht
  unfold pattern.views at ht
  obtain ⟨s, _, rfl⟩ := List.mem_map.mp ht
  unfold board.at
  split
  · rw [transform_tile]
    exact Fin.is_lt _
  · norm_num

theorem views_length (p : List Nat) (i : Fin 8) : (pattern.views p i).length = p.length := by
  simp [pattern.views]

theorem hex_digit_length : ∀ t, t < 16 → ((Nat.toDigits 16 t).map ascii).length = 1 := by
  decide

theorem nameof_length (l : List Nat) (h : ∀ t ∈ l, t < 16) :
    (pattern.nameof l).length = l.length := by
  induction l with
  | nil => rfl
  | cons x xs ih =>
    show (((Nat.toDigits 16 x).map ascii) ++ pattern.nameof xs).length = _
    rw [List.length_append, ih (fun t ht => h t (by simp [ht])),
      hex_digit_length x (h x (by simp))]
    simp [Nat.add_comm]

theorem to_string_small : ∀ k, k ≤ 7 → to_string k = [ascii (Nat.digitChar k)] := by
  decide

theorem name_length_of_views (W : Type) (p : List Nat) (w : List W) (hk : p.length ≤ 7) :
    (pattern.name ({ isomorphism := pattern.views p, weight_ := w } : pattern W)).length
      = 16 + p.length := by
  unfold pattern.name
  simp only [List.length_append, nameof_length _ (views_lt p 0), views_length,
    to_string_small _ hk, List.length_map]
  simp [Nat.add_comm]
/-! ## Persistence: writing and reading one pattern -/

theorem name_congr {W V : Type} (P : pattern W) (Q : pattern V)
    (h : P.isomorphism = Q.isomorphism) : P.name = Q.name := by
  unfold pattern.name
  rw [h]

theorem write_layout (out : List byte) (P : pattern float32)
    (hname : P.name.length < 2 ^ 32) (hw : 4 * P.weight_.length < 2 ^ 64) :
    pattern.write out P
      = out ++ (le_bytes 4 P.name.length ++ (P.name
          ++ (le_bytes 8 P.weight_.length ++ table_bytes P.weight_))) := by
  have h1 : P.name.length % 2 ^ 32 = P.name.length := Nat.mod_eq_of_lt hname
  have h2 : P.weight_.length % 2 ^ 64 = P.weight_.length := Nat.mod_eq_of_lt (by omega)
  have h3 : (4 * P.weight_.length) % 2 ^ 64 = 4 * P.weight_.length := Nat.mod_eq_of_lt hw
  simp only [pattern.write, h1, h2, h3, List.take_length, List.append_assoc]
  rw [← table_bytes_length, List.take_length]

theorem read_layout (Q : pattern float32) (name : List byte) (w : List float32)
    (rest : List byte) (hQ : name = Q.name) (hname : name.length < 2 ^ 32)
    (hw : 4 * w.length < 2 ^ 64) :
    pattern.read { buf := le_bytes 4 name.length ++ (name
        ++ (le_bytes 8 w.length ++ (table_bytes w ++ rest))), good := true } Q
      = Except.ok ({ buf := rest, good := true }, { Q with weight_ := w }) := by
  have e1 := read_exact (le_bytes 4 name.length)
    (name ++ (le_bytes 8 w.length ++ (table_bytes w ++ rest))) (le_bytes 4 0) 4
    (le_bytes_length 4 _)
  have v1 : le_value (le_bytes 4 name.length) = name.length :=
    le_value_le_bytes_of_lt 4 _ (by norm_num at hname ⊢; exact hname)
  have e2 := read_exact name (le_bytes 8 w.length ++ (table_bytes w ++ rest))
    (List.replicate name.length 0) name.length rfl
  have e3 := read_exact (le_bytes 8 w.length) (table_bytes w ++ rest) (le_bytes 8 0) 8
    (le_bytes_length 8 _)
  have v3 : le_value (le_bytes 8 w.length) = w.length :=
    le_value_le_bytes_of_lt 8 _ (by norm_num at hw ⊢; omega)
  have h4 : (4 * w.length) % 2 ^ 64 = 4 * w.length := Nat.mod_eq_of_lt hw
  have e4 := read_exact (table_bytes w) rest (table_bytes (resize Q.weight_ w.length 0))
    (4 * w.length) (table_bytes_length w)
  simp only [pattern.read, e1, v1, e2, e3, v3, h4, e4, hQ.symm, ne_eq, not_true_eq_false,
    if_false, table_of_bytes_table_bytes]

/-- C7: serialization round trip.  For a pattern `P` whose views come from the
tuple `p`, with an arbitrary weight table (of a byte size that fits `size_t`),
and the pattern `Q` constructed from the same tuple: reading into `Q` the
bytes `operator<<` wrote for `P` returns normally, leaves `Q` with exactly the
table of `P` (same length, every stored `float` identical), and consumes
exactly the bytes written, whatever follows them in the stream. -/
theorem serialization_round_trip (p : List Nat) (P Q : pattern float32)
    (hP : P.isomorphism = pattern.views p) (hQ : pattern.new float32 p = some Q)
    (hw : 4 * P.weight_.length < 2 ^ 64) (rest : List byte) :
    pattern.read { buf := pattern.write [] P ++ rest, good := true } Q
        = Except.ok ({ buf := rest, good := true }, { Q with weight_ := P.weight_ }) := by
  obtain ⟨hiso, _, _, hk⟩ := new_spec p Q hQ
  have hPQ : P.name = Q.name := name_congr P Q (by rw [hP, hiso])
  have hlen : P.name.length = 16 + p.length := by
    rw [name_congr P ({ isomorphism := pattern.views p, weight_ := P.weight_ } : pattern float32) hP]
    exact name_length_of_views float32 p _ hk
  have hname : P.name.length < 2 ^ 32 := by rw [hlen]; norm_num; omega
  rw [write_layout [] P hname hw]
  simp only [List.nil_append, List.append_assoc]
  exact read_layout Q P.name P.weight_ rest hPQ hname hw

theorem serialization_round_trip_witness :
    (({ isomorphism := pattern.views [0], weight_ := [⟨1, 2, 3, 4⟩] } : pattern float32).isomorphism
        = pattern.views [0]) ∧
    pattern.new float32 [0]
        = some { isomorphism := pattern.views [0], weight_ := List.replicate 16 0 } ∧
    4 * ([⟨1, 2, 3, 4⟩] : List float32).length < 2 ^ 64 ∧
    pattern.read
        { buf := pattern.write []
            ({ isomorphism := pattern.views [0], weight_ := [⟨1, 2, 3, 4⟩] } : pattern float32)
            ++ [7], good := true }
        { isomorphism := pattern.views [0], weight_ := List.replicate 16 0 }
      = Except.ok ({ buf := [7], good := true },
          { isomorphism := pattern.views [0], weight_ := [⟨1, 2, 3, 4⟩] }) :=
  ⟨rfl, rfl, by decide,
    serialization_round_trip [0]
      { isomorphism := pattern.views [0], weight_ := [⟨1, 2, 3, 4⟩] }
      { isomorphism := pattern.views [0], weight_ := List.replicate 16 0 }
      rfl rfl (by decide) [7]⟩
/-! ## Persistence: the name as an identity tag -/

theorem views_zero (p : List Nat) (hp : ∀ t ∈ p, t < 16) : pattern.views p 0 = p := by
  unfold pattern.views
  conv_rhs => rw [← List.map_id p]
  apply List.map_congr_left
  intro t ht
  have h := hp t ht
  rw [transform_at _ _ _ h]
  rfl

theorem hex_digit_single : ∀ t, t < 16 →
    (Nat.toDigits 16 t).map ascii = [ascii (Nat.digitChar t)] := by
  decide

theorem nameof_eq_map (l : List Nat) (h : ∀ t ∈ l, t < 16) :
    pattern.nameof l = l.map (fun t => ascii (Nat.digitChar t)) := by
  induction l with
  | nil => rfl
  | cons x xs ih =>
    show ((Nat.toDigits 16 x).map ascii) ++ pattern.nameof xs = _
    rw [ih (fun t ht => h t (by simp [ht])), hex_digit_single x (h x (by simp))]
    rfl

theorem name_of_views (W : Type) (p : List Nat) (w : List W) (hk : p.length ≤ 7) :
    pattern.name ({ isomorphism := pattern.views p, weight_ := w } : pattern W)
      = ascii (Nat.digitChar p.length) :: ("-tuple pattern ".toList.map ascii
          ++ (pattern.views p 0).map (fun t => ascii (Nat.digitChar t))) := by
  unfold pattern.name
  simp only [nameof_eq_map _ (views_lt p 0), views_length, to_string_small _ hk]
  rfl

theorem digit_byte_injective : ∀ s, s < 16 → ∀ t, t < 16 →
    ascii (Nat.digitChar s) = ascii (Nat.digitChar t) → s = t := by
  decide

theorem map_digit_injective (l l' : List Nat) (h : ∀ t ∈ l, t < 16) (h' : ∀ t ∈ l', t < 16)
    (e : l.map (fun t => ascii (Nat.digitChar t)) = l'.map (fun t => ascii (Nat.digitChar t))) :
    l = l' := by
  induction l generalizing l' with
  | nil =>
    cases l' with
    | nil => rfl
    | cons y ys => simp at e
  | cons x xs ih =>
    cases l' with
    | nil => simp at e
    | cons y ys =>
      simp only [List.map_cons, List.cons.injEq] at e
      have hxy := digit_byte_injective x (h x (by simp)) y (h' y (by simp)) e.1
      have := ih ys (fun t ht => h t (by simp [ht])) (fun t ht => h' t (by simp [ht])) e.2
      rw [hxy, this]

theorem name_injective (W V : Type) (p q : List Nat) (w : List W) (v : List V)
    (hp : ∀ t ∈ p, t < 16) (hq : ∀ t ∈ q, t < 16) (hkp : p.length ≤ 7) (hkq : q.length ≤ 7)
    (e : pattern.name ({ isomorphism := pattern.views p, weight_ := w } : pattern W)
      = pattern.name ({ isomorphism := pattern.views q, weight_ := v } : pattern V)) :
    p = q := by
  rw [name_of_views W p w hkp, name_of_views V q v hkq, views_zero p hp, views_zero q hq] at e
  simp only [List.cons.injEq] at e
  exact map_digit_injective p q hp hq (List.append_cancel_left e.2)

theorem write_header (out : List byte) (P : pattern float32) (hname : P.name.length < 2 ^ 32) :
    ∃ tail, pattern.write out P = out ++ (le_bytes 4 P.name.length ++ (P.name ++ tail)) := by
  have h1 : P.name.length % 2 ^ 32 = P.name.length := Nat.mod_eq_of_lt hname
  refine ⟨le_bytes 8 (P.weight_.length % 2 ^ 64)
    ++ (table_bytes P.weight_).take ((4 * (P.weight_.length % 2 ^ 64)) % 2 ^ 64), ?_⟩
  simp only [pattern.write, h1, List.take_length, List.append_assoc]

theorem read_name_mismatch (Q : pattern float32) (name tail : List byte)
    (hname : name.length < 2 ^ 32) (hne : name ≠ Q.name) :
    pattern.read { buf := le_bytes 4 name.length ++ (name ++ tail), good := true } Q
      = Except.error Q := by
  have e1 := read_exact (le_bytes 4 name.length) (name ++ tail) (le_bytes 4 0) 4
    (le_bytes_length 4 _)
  have v1 : le_value (le_bytes 4 name.length) = name.length :=
    le_value_le_bytes_of_lt 4 _ (by norm_num at hname ⊢; exact hname)
  have e2 := read_exact name tail (List.replicate name.length 0) name.length rfl
  simp only [pattern.read, e1, v1, e2, ne_eq, hne, not_false_eq_true, if_true]

/-- C8: identity check on load.  For patterns `P` and `Q` built from different
tuple specifications with positions in `0..15` (`P` with any table), the name
stored for `P` differs from the name `Q` computes, and reading into `Q` the
bytes written for `P` stops at the name assertion with `Q` as it was: its
weight table is not replaced. -/
theorem load_rejects_other_tuple (p q : List Nat) (P P0 Q : pattern float32)
    (hp : ∀ t ∈ p, t < 16) (hq : ∀ t ∈ q, t < 16) (hpq : p ≠ q)
    (hP0 : pattern.new float32 p = some P0) (hP : P.isomorphism = P0.isomorphism)
    (hQ : pattern.new float32 q = some Q) (rest : List byte) :
    P.name ≠ Q.name ∧
    pattern.read { buf := pattern.write [] P ++ rest, good := true } Q = Except.error Q := by
  obtain ⟨hisoP, _, _, hkp⟩ := new_spec p P0 hP0
  obtain ⟨hisoQ, _, _, hkq⟩ := new_spec q Q hQ
  have hPn : P.name
      = pattern.name ({ isomorphism := pattern.views p, weight_ := P.weight_ } : pattern float32) :=
    name_congr _ _ (by rw [hP, hisoP])
  have hQn : Q.name
      = pattern.name ({ isomorphism := pattern.views q, weight_ := Q.weight_ } : pattern float32) :=
    name_congr _ _ hisoQ
  have hne : P.name ≠ Q.name := by
    intro e
    rw [hPn, hQn] at e
    exact hpq (name_injective _ _ p q _ _ hp hq hkp hkq e)
  have hlen : P.name.length < 2 ^ 32 := by
    rw [hPn, name_length_of_views float32 p _ hkp]; norm_num; omega
  refine ⟨hne, ?_⟩
  obtain ⟨tail, hwr⟩ := write_header [] P hlen
  rw [hwr]
  simp only [List.nil_append, List.append_assoc]
  exact read_name_mismatch Q P.name (tail ++ rest) hlen hne

theorem load_rejects_other_tuple_witness :
    (∀ t ∈ [0], t < 16) ∧ (∀ t ∈ [1], t < 16) ∧ ([0] : List Nat) ≠ [1] ∧
    pattern.read
        { buf := pattern.write []
            ({ isomorphism := pattern.views [0], weight_ := [⟨1, 2, 3, 4⟩] } : pattern float32)
            ++ [], good := true }
        { isomorphism := pattern.views [1], weight_ := List.replicate 16 0 }
      = Except.error { isomorphism := pattern.views [1], weight_ := List.replicate 16 0 } :=
  ⟨by decide, by decide, by decide,
    (load_rejects_other_tuple [0] [1]
      { isomorphism := pattern.views [0], weight_ := [⟨1, 2, 3, 4⟩] }
      { isomorphism := pattern.views [0], weight_ := List.replicate 16 0 }
      { isomorphism := pattern.views [1], weight_ := List.replicate 16 0 }
      (by decide) (by decide) (by decide) rfl rfl rfl []).2⟩

/-! ## Persistence: the weight file -/

theorem write_append (out : List byte) (P : pattern float32) :
    pattern.write out P = out ++ pattern.write [] P := by
  simp only [pattern.write, List.nil_append, List.append_assoc]

theorem foldl_write (net : List (pattern float32)) (out : List byte) :
    net.foldl (fun out p => pattern.write out p) out
      = out ++ (net.map (fun p => pattern.write [] p)).flatten := by
  induction net generalizing out with
  | nil => simp
  | cons P rest ih =>
    rw [List.foldl_cons, ih, write_append]
    simp [List.append_assoc]

/-- C9 (as amended): weight file layout.  For a pattern list whose count and
name lengths fit 32 bits and whose tables fit `size_t`, the bytes
`save_weights` writes to an opened file are a 4-byte entry count equal to the
number of patterns, followed for each pattern in list order by a 4-byte name
length, the name bytes, an 8-byte table entry count, and that many 4-byte
weights in table order. -/
theorem save_weights_layout (net : List (pattern float32)) (hcount : net.length < 2 ^ 32)
    (hnames : ∀ P ∈ net, P.name.length < 2 ^ 32)
    (hsizes : ∀ P ∈ net, 4 * P.weight_.length < 2 ^ 64) :
    weight_agent.save_weights true net
      = some (le_bytes 4 net.length
          ++ (net.map (fun P => le_bytes 4 P.name.length ++ (P.name
                ++ (le_bytes 8 P.weight_.length ++ P.weight_.flatMap float32.bytes)))).flatten) ∧
    (le_bytes 4 net.length).length = 4 ∧ le_value (le_bytes 4 net.length) = net.length ∧
    ∀ P ∈ net,
      (le_bytes 4 P.name.length).length = 4 ∧
      le_value (le_bytes 4 P.name.length) = P.name.length ∧
      (le_bytes 8 P.weight_.length).length = 8 ∧
      le_value (le_bytes 8 P.weight_.length) = P.weight_.length ∧
      (P.weight_.flatMap float32.bytes).length = 4 * P.weight_.length ∧
      ∀ x ∈ P.weight_, x.bytes.length = 4 := by
  refine ⟨?_, le_bytes_length 4 _, le_value_le_bytes_of_lt 4 _ (by norm_num at hcount ⊢; exact hcount), ?_⟩
  · have hmap : net.map (fun p => pattern.write [] p)
        = net.map (fun P => le_bytes 4 P.name.length ++ (P.name
            ++ (le_bytes 8 P.weight_.length ++ P.weight_.flatMap float32.bytes))) := by
      apply List.map_congr_left
      intro P hP
      rw [write_layout [] P (hnames P hP) (hsizes P hP)]
      rfl
    simp only [weight_agent.save_weights, not_true_eq_false, if_false,
      Nat.mod_eq_of_lt hcount, foldl_write, hmap]
  · intro P hP
    have h1 := hnames P hP
    have h2 := hsizes P hP
    refine ⟨le_bytes_length 4 _, le_value_le_bytes_of_lt 4 _ (by norm_num at h1 ⊢; exact h1),
      le_bytes_length 8 _, le_value_le_bytes_of_lt 8 _ (by norm_num at h2 ⊢; omega),
      table_bytes_length _, fun x _ => rfl⟩

theorem save_weights_layout_witness :
    ([pattern_trained].length < 2 ^ 32) ∧
    (∀ P ∈ [pattern_trained], P.name.length < 2 ^ 32) ∧
    (∀ P ∈ [pattern_trained], 4 * P.weight_.length < 2 ^ 64) ∧
    le_value (le_bytes 4 [pattern_trained].length) = [pattern_trained].length :=
  ⟨by decide, by decide, by decide,
    (save_weights_layout [pattern_trained] (by decide) (by decide) (by decide)).2.2.1⟩

set_option maxRecDepth 100000 in
/-- C9, counterexample to the claim as stated: for the list of the one pattern
`pattern_trained` the file starts with the 4-byte count `1, 0, 0, 0`, directly
followed by the 4-byte name length `17, 0, 0, 0`; with an 8-byte count the
file would be 101 bytes long, it is 97 bytes long. -/
theorem save_weights_layout_counterexample :
    (weight_agent.save_weights true [pattern_trained]).map (fun bytes => bytes.take 8)
      = some [1, 0, 0, 0, 17, 0, 0, 0] ∧
    (weight_agent.save_weights true [pattern_trained]).map List.length = some 97 ∧
    weight_agent.save_weights true [pattern_trained]
      ≠ some (le_bytes 8 [pattern_trained].length
          ++ (le_bytes 4 pattern_trained.name.length ++ (pattern_trained.name
            ++ (le_bytes 8 pattern_trained.weight_.length
              ++ pattern_trained.weight_.flatMap float32.bytes)))) := by
  decide

/-! ## Persistence: truncated input -/

theorem weight_agent_update_fold {W : Type} [Zero W] [Add W] [Div W] [NatCast W]
    (b : board) (us : W) (net : List (pattern W)) (st : List (pattern W) × W) :
    net.foldl (fun (st : List (pattern W) × W) p =>
        (st.1 ++ [(p.update b us).1], st.2 + (p.update b us).2)) st
      = (st.1 ++ net.map (fun p => (p.update b us).1),
         (net.map (fun p => (p.update b us).2)).foldl (fun value y => value + y) st.2) := by
  induction net generalizing st with
  | nil => simp
  | cons p ps ih =>
    rw [List.foldl_cons, ih]
    simp [List.append_assoc]

theorem weight_agent_update_eq {W : Type} [Zero W] [Add W] [Div W] [NatCast W]
    (net : List (pattern W)) (b : board) (u : W) :
    weight_agent.update net b u
      = (net.map (fun p => (p.update b (u / ((net.length : Nat) : W))).1),
         (net.map (fun p => (p.update b (u / ((net.length : Nat) : W))).2)).foldl
           (fun value y => value + y) 0) := by
  unfold weight_agent.update
  have h := weight_agent_update_fold b (u / ((net.length : Nat) : W)) net ([], 0)
  simpa using h

/-- C12: `weight_agent::update` splits the signal evenly.  For a list of `n`
patterns, a board `b` and a signal `u`, the updated list holds, pattern by
pattern and in the same order, what the pattern's own `update(b, u / n)`
leaves, and the returned value is the left-to-right sum, from `0`, of the `n`
values those pattern updates return. -/
theorem weight_agent_update_split {W : Type} [Zero W] [Add W] [Div W] [NatCast W]
    (net : List (pattern W)) (b : board) (u : W) :
    (weight_agent.update net b u).1
        = net.map (fun p => (p.update b (u / ((net.length : Nat) : W))).1) ∧
    (weight_agent.update net b u).1.length = net.length ∧
    (∀ i (h : i < net.length), ((weight_agent.update net b u).1.getD i (pattern.default W)).weight_
        = ((net.get ⟨i, h⟩).update b (u / ((net.length : Nat) : W))).1.weight_) ∧
    (weight_agent.update net b u).2
        = (net.map (fun p => (p.update b (u / ((net.length : Nat) : W))).2)).foldl
            (fun value y => value + y) 0 := by
  rw [weight_agent_update_eq]
  refine ⟨rfl, by simp, ?_, rfl⟩
  intro i h
  simp [List.getD_eq_getElem?_getD, h]

/-! ## Index packing as a sum, and the table bounds -/

theorem pack_eq_sum (vals : List Nat) (h : ∀ v ∈ vals, v < 16) :
    pack vals = Finset.sum (Finset.range vals.length) (fun j => vals.getD j 0 * 16 ^ j) := by
  induction vals using List.reverseRecOn with
  | nil => simp [pack]
  | append_singleton vals x ih =>
    have hvals : ∀ v ∈ vals, v < 16 := fun v hv => h v (by simp [hv])
    have hlt := pack_lt vals hvals
    have e16 : (16 : Nat) ^ vals.length = 2 ^ (4 * vals.length) := by
      rw [pow_mul]; norm_num
    rw [e16] at hlt
    rw [pack_append_singleton, List.length_append, List.length_singleton,
      Finset.sum_range_succ, Nat.lor_comm, Nat.shiftLeft_eq, Nat.shiftLeft_eq,
      Nat.mul_comm x, show vals.length * 2 ^ 2 = 4 * vals.length by ring,
      ← Nat.mul_add_lt_is_or hlt, ih hvals, Nat.add_comm]
    congr 1
    · apply Finset.sum_congr rfl
      intro j hj
      have hj' : j < vals.length := Finset.mem_range.mp hj
      simp [List.getD_eq_getElem?_getD, List.getElem?_append_left hj']
    · simp [List.getD_eq_getElem?_getD, e16, Nat.mul_comm]

theorem cells_lt (v : List Nat) (b : board) (hb : ∀ q, b.tile q < 16) :
    ∀ c ∈ v.map b.at, c < 16 := by
  intro c hc
  obtain ⟨t, _, rfl⟩ := List.mem_map.mp hc
  unfold board.at
  split
  · exact hb _
  · norm_num

theorem indexof_eq_sum (v : List Nat) (b : board) (hb : ∀ q, b.tile q < 16) :
    pattern.indexof v b
      = Finset.sum (Finset.range v.length) (fun j => b.at (v.getD j 0) * 16 ^ j) := by
  rw [indexof_eq_pack, pack_eq_sum _ (cells_lt v b hb), List.length_map]
  apply Finset.sum_congr rfl
  intro j hj
  have hj' : j < v.length := Finset.mem_range.mp hj
  simp [List.getD_eq_getElem?_getD, hj']

theorem indexof_lt (v : List Nat) (b : board) (hb : ∀ q, b.tile q < 16) :
    pattern.indexof v b < 16 ^ v.length := by
  rw [indexof_eq_pack]
  have h := pack_lt _ (cells_lt v b hb)
  rwa [List.length_map] at h

theorem update_length {W : Type} [Zero W] [Add W] [Div W] [NatCast W]
    (P : pattern W) (b : board) (u : W) :
    (P.update b u).1.weight_.length = P.weight_.length := by
  rw [update_fst]
  exact bump_all_length _ _ _

theorem update_isomorphism {W : Type} [Zero W] [Add W] [Div W] [NatCast W]
    (P : pattern W) (b : board) (u : W) :
    (P.update b u).1.isomorphism = P.isomorphism := by
  rw [update_fst]

theorem updates_length {W : Type} [Zero W] [Add W] [Div W] [NatCast W]
    (calls : List (board × W)) (P : pattern W) :
    (P.updates calls).weight_.length = P.weight_.length ∧
      (P.updates calls).isomorphism = P.isomorphism := by
  induction calls generalizing P with
  | nil => exact ⟨rfl, rfl⟩
  | cons c cs ih =>
    have h := ih (P.update c.1 c.2).1
    exact ⟨h.1.trans (update_length P c.1 c.2), h.2.trans (update_isomorphism P c.1 c.2)⟩

/-- C13: index packing and bounds.  For a pattern constructed from a tuple of
length `k`, every view `i` and every board whose cells lie in `0..15`, the
index `indexof` computes is the sum over `j < k` of `cell(view_i[j]) * 16 ^ j`,
it is below `2 ^ (4 k)`, and it is inside the table built at construction, also
after any sequence of updates: every access of `estimate` and `update` is
within the table. -/
theorem indexof_packs_within_table {W : Type} [Zero W] [Add W] [Div W] [NatCast W]
    (p : List Nat) (P : pattern W) (hnew : pattern.new W p = some P) (b : board)
    (hb : ∀ q, b.tile q < 16) (i : Fin 8) (calls : List (board × W)) :
    pattern.indexof (P.isomorphism i) b
        = Finset.sum (Finset.range p.length)
            (fun j => b.at ((P.isomorphism i).getD j 0) * 16 ^ j) ∧
    pattern.indexof (P.isomorphism i) b < 2 ^ (4 * p.length) ∧
    pattern.indexof (P.isomorphism i) b < P.weight_.length ∧
    pattern.indexof ((P.updates calls).isomorphism i) b < (P.updates calls).weight_.length := by
  obtain ⟨hiso, hw, _, _⟩ := new_spec p P hnew
  have hlen : (P.isomorphism i).length = p.length := by rw [hiso, views_length]
  have hlt := indexof_lt (P.isomorphism i) b hb
  have hsum := indexof_eq_sum (P.isomorphism i) b hb
  rw [hlen] at hlt hsum
  have e16 : (16 : Nat) ^ p.length = 2 ^ (4 * p.length) := by rw [pow_mul]; norm_num
  have hwl : P.weight_.length = 16 ^ p.length := by rw [hw, List.length_replicate]
  refine ⟨hsum, by rw [← e16]; exact hlt, by rw [hwl]; exact hlt, ?_⟩
  rw [(updates_length calls P).1, (updates_length calls P).2, hwl]
  exact hlt

theorem indexof_packs_within_table_witness :
    pattern.new ℚ [0] = some { isomorphism := pattern.views [0], weight_ := List.replicate 16 0 } ∧
    (∀ q, board.single.tile q < 16) ∧
    pattern.indexof (pattern.views [0] 3) board.single < 2 ^ (4 * [0].length) :=
  ⟨rfl, by decide,
    (indexof_packs_within_table [0]
      ({ isomorphism := pattern.views [0], weight_ := List.replicate 16 0 } : pattern ℚ) rfl
      board.single (by decide) 3 []).2.1⟩

/-! ## The size of the table -/

/-- C14 (as amended): table size invariant.  For a tuple specification of
length `k` with `1 <= k <= 7` the constructor yields a pattern whose weight
table has exactly `2 ^ (4 k)` entries, all zero, and after any sequence of
updates the table still has exactly `2 ^ (4 k)` entries (`estimate` is a
function of the pattern and yields no table). -/
theorem table_size_invariant {W : Type} [Zero W] [Add W] [Div W] [NatCast W]
    (p : List Nat) (hk : 0 < p.length) (hk7 : p.length ≤ 7) :
    ∃ P : pattern W, pattern.new W p = some P ∧
      P.weight_.length = 2 ^ (4 * p.length) ∧ (∀ x ∈ P.weight_, x = 0) ∧
      ∀ calls : List (board × W), (P.updates calls).weight_.length = 2 ^ (4 * p.length) := by
  have hts : pattern.table_size p.length = some (2 ^ (4 * p.length)) := by
    unfold pattern.table_size
    have h : p.length <<< 2 < 31 := by rw [Nat.shiftLeft_eq]; omega
    rw [if_pos h, Nat.shiftLeft_eq, Nat.shiftLeft_eq, one_mul, Nat.mul_comm]
  refine ⟨{ isomorphism := pattern.views p, weight_ := List.replicate (2 ^ (4 * p.length)) 0 },
    ?_, by simp, fun x hx => List.eq_of_mem_replicate hx, ?_⟩
  · unfold pattern.new
    rw [hts]
    simp [Nat.pos_iff_ne_zero.mp hk]
  · intro calls
    rw [(updates_length calls _).1, List.length_replicate]

theorem table_size_invariant_witness :
    0 < [0].length ∧ [0].length ≤ 7 ∧
    ∃ P : pattern ℚ, pattern.new ℚ [0] = some P ∧ P.weight_.length = 2 ^ (4 * [0].length) :=
  ⟨by decide, by decide,
    (table_size_invariant (W := ℚ) [0] (by decide) (by decide)).imp
      (fun _ h => ⟨h.1, h.2.1⟩)⟩

/-- C14, counterexample to the claim as stated: for the tuple
`{0, 1, 2, 3, 4, 5, 6, 7}` of length 8 the table size `1 << 32` is not defined
in `int`, and the constructor yields no pattern with `2 ^ 32` entries. -/
theorem table_size_counterexample :
    pattern.table_size [0, 1, 2, 3, 4, 5, 6, 7].length = none ∧
    ¬ ∃ P : pattern ℚ, pattern.new ℚ [0, 1, 2, 3, 4, 5, 6, 7] = some P ∧
        P.weight_.length = 2 ^ (4 * [0, 1, 2, 3, 4, 5, 6, 7].length) := by
  refine ⟨rfl, ?_⟩
  rintro ⟨P, hP, _⟩
  have hnone : pattern.new ℚ [0, 1, 2, 3, 4, 5, 6, 7] = none := rfl
  rw [hnone] at hP
  exact Option.noConfusion hP

/-! ## The value `update` returns when views collide -/

theorem indexof_empty (v : List Nat) : pattern.indexof v board.empty = 0 := by
  have hb : ∀ q, board.empty.tile q < 16 := fun q => by simp [board.empty]
  rw [indexof_eq_sum v board.empty hb]
  apply Finset.sum_eq_zero
  intro j _
  have : board.empty.at (v.getD j 0) = 0 := by
    unfold board.at board.empty
    split <;> rfl
  rw [this, Nat.zero_mul]

theorem bump_slot_zero {W : Type} [Field W] [CharZero W] (us : W) (iso : Fin 8 → List Nat)
    (l : List (Fin 8)) (w : List W) (v : W) (hw : 0 < w.length) :
    l.foldl (fun (st : pattern W × W) (_ : Fin 8) =>
        (({ isomorphism := st.1.isomorphism, weight_ := st.1.weight_.set 0 (st.1.weight_.getD 0 0 + us) } : pattern W),
          st.2 + (st.1.weight_.set 0 (st.1.weight_.getD 0 0 + us)).getD 0 0))
        (({ isomorphism := iso, weight_ := w } : pattern W), v)
      = (({ isomorphism := iso, weight_ := w.set 0 (w.getD 0 0 + (l.length : W) * us) }
            : pattern W),
          v + (l.length : W) * w.getD 0 0
            + ((l.length : W) * ((l.length : W) + 1) / 2) * us) := by
  induction l generalizing w v with
  | nil =>
    cases w with
    | nil => simp at hw
    | cons x xs => simp
  | cons i l ih =>
    rw [List.foldl_cons]
    have hw' : 0 < (w.set 0 (w.getD 0 0 + us)).length := by rw [List.length_set]; exact hw
    have hget : (w.set 0 (w.getD 0 0 + us)).getD 0 0 = w.getD 0 0 + us := by
      simp [List.getD_eq_getElem?_getD, hw]
    simp only []
    rw [ih (w.set 0 (w.getD 0 0 + us)) _ hw', hget, List.set_set]
    congr 1
    · congr 2
      push_cast [List.length_cons]
      ring
    · push_cast [List.length_cons]
      field_simp
      ring

theorem update_empty_fold {W : Type} [Zero W] [Add W] [Div W] [NatCast W]
    (P : pattern W) (u : W) :
    P.update board.empty u
      = (List.finRange 8).foldl (fun (st : pattern W × W) (_ : Fin 8) =>
          (({ isomorphism := st.1.isomorphism, weight_ := st.1.weight_.set 0 (st.1.weight_.getD 0 0 + u / ((iso_level_ : Nat) : W)) } : pattern W),
            st.2 + (st.1.weight_.set 0 (st.1.weight_.getD 0 0 + u / ((iso_level_ : Nat) : W))).getD 0 0))
          (P, 0) := by
  unfold pattern.update
  apply List.foldl_ext
  intro st i _
  simp only [indexof_empty]

theorem update_empty_board {W : Type} [Field W] [CharZero W] (P : pattern W) (u : W)
    (hw : 0 < P.weight_.length) :
    (P.update board.empty u).2 = 8 * P.weight_.getD 0 0 + 9 / 2 * u ∧
    (P.update board.empty u).1.estimate board.empty = 8 * P.weight_.getD 0 0 + 8 * u := by
  have h := bump_slot_zero (u / ((iso_level_ : Nat) : W)) P.isomorphism (List.finRange 8)
    P.weight_ 0 hw
  rw [update_empty_fold, h]
  constructor
  · simp only [List.length_finRange, iso_level_]
    push_cast
    ring
  · rw [estimate_eq_sum]
    have hvi : ∀ w : List W, view_indices
        ({ isomorphism := P.isomorphism, weight_ := w } : pattern W) board.empty
        = (List.finRange 8).map (fun _ => 0) := by
      intro w
      unfold view_indices
      apply List.map_congr_left
      intro i _
      exact indexof_empty _
    rw [hvi]
    simp only [List.map_map, List.length_finRange, iso_level_]
    have hget : (P.weight_.set 0 (P.weight_.getD 0 0 + ((8 : Nat) : W) * (u / ((8 : Nat) : W)))).getD 0 0
        = P.weight_.getD 0 0 + u := by
      simp [List.getD_eq_getElem?_getD, hw]
      field_simp
    simp only [Function.comp_def, hget]
    simp
    ring
theorem update_empty_board_fresh (iso : Fin 8 → List Nat) (n : Nat) (hn : 0 < n) (u : ℚ) :
    (pattern.update ({ isomorphism := iso, weight_ := List.replicate n 0 } : pattern ℚ)
        board.empty u).2 = 9 / 2 * u ∧
    (pattern.update ({ isomorphism := iso, weight_ := List.replicate n 0 } : pattern ℚ)
        board.empty u).1.estimate board.empty = 8 * u := by
  have h := update_empty_board
    ({ isomorphism := iso, weight_ := List.replicate n 0 } : pattern ℚ) u
    (by rw [List.length_replicate]; exact hn)
  rw [getD_replicate_zero] at h
  rw [h.1, h.2]
  constructor <;> ring

/-- C15, the code at the failing input: on the empty board every view of every
pattern has index `0`.  For the first pattern of the constructed agent (zero
table) `update(b, 8)` returns `36` while `estimate(b)` on the updated table is
`64`; for the whole constructed pattern list `weight_agent::update(b, 8)`
returns `36` while `weight_agent::estimate(b)` afterwards is `64`. -/
theorem update_return_differs_from_estimate :
    (pattern.update ({ isomorphism := pattern.views [0, 1, 2, 3, 4, 5], weight_ := List.replicate (16 ^ 6) 0 } : pattern ℚ) board.empty 8).2 = 36 ∧
    (pattern.update ({ isomorphism := pattern.views [0, 1, 2, 3, 4, 5], weight_ := List.replicate (16 ^ 6) 0 } : pattern ℚ) board.empty 8).1.estimate board.empty = 64 ∧
    (weight_agent.update net_fresh board.empty 8).2 = 36 ∧
    weight_agent.estimate (weight_agent.update net_fresh board.empty 8).1 board.empty = 64 := by
  have hn : 0 < 16 ^ 6 := by norm_num
  have h1 := update_empty_board_fresh (pattern.views [0, 1, 2, 3, 4, 5]) (16 ^ 6) hn
  have h2 := update_empty_board_fresh (pattern.views [4, 5, 6, 7, 8, 9]) (16 ^ 6) hn
  have h3 := update_empty_board_fresh (pattern.views [0, 1, 2, 4, 5, 6]) (16 ^ 6) hn
  have h4 := update_empty_board_fresh (pattern.views [4, 5, 6, 8, 9, 10]) (16 ^ 6) hn
  refine ⟨?_, ?_, ?_, ?_⟩
  · rw [(h1 8).1]; norm_num
  · rw [(h1 8).2]; norm_num
  · rw [weight_agent_update_eq]
    simp only [net_fresh, tdl_agent.tuples, List.map_cons, List.map_nil, List.length_cons,
      List.length_nil, List.foldl_cons, List.foldl_nil, (h1 _).1, (h2 _).1, (h3 _).1, (h4 _).1]
    norm_num
  · rw [weight_agent_update_eq]
    simp only [net_fresh, tdl_agent.tuples, List.map_cons, List.map_nil, List.length_cons,
      List.length_nil, weight_agent.estimate, List.foldl_cons, List.foldl_nil,
      (h1 _).2, (h2 _).2, (h3 _).2, (h4 _).2]
    norm_num

/-! ## The name of a pattern -/

theorem toDigitsCore_ten (fuel : Nat) : ∀ (n : Nat) (ds : List Char), n < fuel → 0 < n →
    Nat.toDigitsCore 10 fuel n ds = (Nat.digits 10 n).reverse.map Nat.digitChar ++ ds := by
  induction fuel with
  | zero => intro n ds h; omega
  | succ f ih =>
    intro n ds hn hpos
    rw [Nat.digits_def' (by norm_num) hpos]
    simp only [Nat.toDigitsCore]
    by_cases h0 : n / 10 = 0
    · simp [h0]
    · rw [if_neg h0, ih (n / 10) _ (by omega) (Nat.pos_of_ne_zero h0)]
      simp

theorem toDigits_ten (n : Nat) (hpos : 0 < n) :
    Nat.toDigits 10 n = (Nat.digits 10 n).reverse.map Nat.digitChar := by
  unfold Nat.toDigits
  rw [toDigitsCore_ten (n + 1) n [] (by omega) hpos, List.append_nil]

theorem to_string_pos (n : Nat) (hpos : 0 < n) :
    to_string n = (Nat.digits 10 n).reverse.map (fun t => ascii (Nat.digitChar t)) := by
  unfold to_string
  rw [toDigits_ten n hpos, List.map_map]
  rfl

theorem dash_not_digit : ∀ t, t < 16 → ascii (Nat.digitChar t) ≠ 45 := by
  decide

theorem to_string_no_dash (n : Nat) : ∀ b ∈ to_string n, b ≠ 45 := by
  intro b hb
  rcases Nat.eq_zero_or_pos n with h0 | hpos
  · subst h0
    have : to_string 0 = [48] := by decide
    rw [this] at hb
    simp at hb
    subst hb
    decide
  · rw [to_string_pos n hpos] at hb
    obtain ⟨t, ht, rfl⟩ := List.mem_map.mp hb
    have : t < 10 := Nat.digits_lt_base (by norm_num) (List.mem_reverse.mp ht)
    exact dash_not_digit t (by omega)

theorem append_sep_cancel {α : Type} (x : α) :
    ∀ (a b r r' : List α), x ∉ a → x ∉ b → a ++ x :: r = b ++ x :: r' → a = b ∧ r = r' := by
  intro a
  induction a with
  | nil =>
    intro b r r' _ hb e
    cases b with
    | nil => simp at e; exact ⟨rfl, e⟩
    | cons y ys =>
      simp only [List.nil_append, List.cons_append, List.cons.injEq] at e
      exact absurd (by rw [e.1]; simp) hb
  | cons z zs ih =>
    intro b r r' ha hb e
    cases b with
    | nil =>
      simp only [List.nil_append, List.cons_append, List.cons.injEq] at e
      exact absurd (by rw [← e.1]; simp) ha
    | cons y ys =>
      simp only [List.cons_append, List.cons.injEq] at e
      have h := ih ys r r' (fun h => ha (by simp [h])) (fun h => hb (by simp [h])) e.2
      exact ⟨by rw [e.1, h.1], h.2⟩

theorem hex_digit_eq : ∀ t, t < 16 → Nat.digitChar t = hex_digit t := by
  decide

theorem name_eq_of_views (W : Type) (p : List Nat) (hp : ∀ t ∈ p, t < 16) (P : pattern W)
    (hP : P.isomorphism = pattern.views p) :
    P.name = to_string p.length
      ++ (45 :: ("tuple pattern ".toList.map ascii
        ++ p.map (fun t => ascii (Nat.digitChar t)))) := by
  unfold pattern.name
  rw [hP, views_zero p hp, nameof_eq_map p hp, List.append_assoc]
  rfl

theorem name_injective_general (W V : Type) (p q : List Nat) (hp : ∀ t ∈ p, t < 16)
    (hq : ∀ t ∈ q, t < 16) (P : pattern W) (Q : pattern V)
    (hP : P.isomorphism = pattern.views p) (hQ : Q.isomorphism = pattern.views q)
    (e : P.name = Q.name) : p = q := by
  rw [name_eq_of_views W p hp P hP, name_eq_of_views V q hq Q hQ] at e
  have h := append_sep_cancel (45 : byte) _ _ _ _ (fun h => to_string_no_dash _ _ h rfl)
    (fun h => to_string_no_dash _ _ h rfl) e
  exact map_digit_injective p q hp hq (List.append_cancel_left h.2)

/-- C16: the pattern name.  For a pattern whose views come from a tuple `p` of
length `k` with positions in `0..15`, `name()` is the decimal rendering of
`k`, then `"-tuple pattern "`, then one lowercase hexadecimal digit per
position of `p` in the original order; the tuple `{4,5,6,8,9,10}` gives
`"6-tuple pattern 45689a"`; and two such patterns have equal names exactly
when their tuples are equal. -/
theorem pattern_name_format (W V : Type) (p q : List Nat) (hp : ∀ t ∈ p, t < 16)
    (hq : ∀ t ∈ q, t < 16) (P : pattern W) (Q : pattern V)
    (hP : P.isomorphism = pattern.views p) (hQ : Q.isomorphism = pattern.views q) :
    P.name = (name_spec p).toList.map ascii ∧
    name_spec [4, 5, 6, 8, 9, 10] = "6-tuple pattern 45689a" ∧
    (P.name = Q.name ↔ p = q) := by
  refine ⟨?_, by decide, ?_⟩
  · rw [name_eq_of_views W p hp P hP]
    unfold name_spec to_string
    simp only [String.toList, String.data_append, List.map_append, List.append_assoc]
    congr 1
    show _ = List.map ascii "-tuple pattern ".toList ++ List.map ascii (p.map hex_digit)
    rw [List.map_map]
    have hmap : p.map (fun t => ascii (Nat.digitChar t)) = p.map (ascii ∘ hex_digit) := by
      apply List.map_congr_left
      intro t ht
      simp only [Function.comp_apply, hex_digit_eq t (hp t ht)]
    rw [hmap]
    rfl
  · constructor
    · exact name_injective_general W V p q hp hq P Q hP hQ
    · intro e
      subst e
      exact name_congr P Q (by rw [hP, hQ])

set_option maxRecDepth 100000 in
theorem pattern_name_format_witness :
    (∀ t ∈ [4, 5, 6, 8, 9, 10], t < 16) ∧ (∀ t ∈ [0, 1, 2, 3, 4, 5], t < 16) ∧
    pattern.name ({ isomorphism := pattern.views [4, 5, 6, 8, 9, 10], weight_ := [] } : pattern ℚ)
      = "6-tuple pattern 45689a".toList.map ascii :=
  ⟨by decide, by decide,
    ((pattern_name_format ℚ ℚ [4, 5, 6, 8, 9, 10] [0, 1, 2, 3, 4, 5] (by decide) (by decide)
      { isomorphism := pattern.views [4, 5, 6, 8, 9, 10], weight_ := [] }
      { isomorphism := pattern.views [0, 1, 2, 3, 4, 5], weight_ := [] } rfl rfl).1).trans
      (by decide)⟩

/-! ## What the backward pass ignores and what it leaves -/

theorem update_episode_drops_last {W : Type} [Zero W] [Add W] [Sub W] [Mul W] [Div W]
    [NatCast W] (alpha : W) (net : List (pattern W)) (moves : List (state W))
    (last : state W) :
    tdl_agent.update_episode { net := net, alpha := alpha, path_ := moves ++ [last] }
      = { net := (td_backward alpha net moves).1, alpha := alpha, path_ := [] } := by
  simp only [tdl_agent.update_episode, List.dropLast_concat,
    update_episode_loop_eq_foldr alpha moves net 0 [], td_backward]

/-- C18: the last trajectory record never influences learning.  Two
trajectories with the same records but for their last one, run through
`update_episode` from the same pattern list and `alpha`, leave the same agent:
identical weight tables, and an empty trajectory in both runs.  The last
record is popped before any update, sentinel or not. -/
theorem last_record_ignored {W : Type} [Zero W] [Add W] [Sub W] [Mul W] [Div W]
    [NatCast W] (alpha : W) (net : List (pattern W)) (moves : List (state W))
    (last1 last2 : state W) :
    (tdl_agent.update_episode { net := net, alpha := alpha, path_ := moves ++ [last1] }).net
      = (tdl_agent.update_episode { net := net, alpha := alpha, path_ := moves ++ [last2] }).net ∧
    (tdl_agent.update_episode { net := net, alpha := alpha, path_ := moves ++ [last1] }).path_
      = [] ∧
    (tdl_agent.update_episode { net := net, alpha := alpha, path_ := moves ++ [last2] }).path_
      = [] ∧
    tdl_agent.update_episode_calls { net := net, alpha := alpha, path_ := moves ++ [last1] }
      = tdl_agent.update_episode_calls { net := net, alpha := alpha, path_ := moves ++ [last2] } := by
  rw [update_episode_drops_last, update_episode_drops_last]
  refine ⟨rfl, rfl, rfl, ?_⟩
  simp only [tdl_agent.update_episode_calls, List.dropLast_concat]

theorem estimate_after_update {W : Type} [Field W] [CharZero W] (P : pattern W) (b : board)
    (u : W) (hin : ∀ s ∈ view_indices P b, s < P.weight_.length)
    (hnd : (view_indices P b).Nodup) :
    (P.update b u).1.estimate b = P.estimate b + u := by
  rw [update_fst, estimate_eq_sum, estimate_eq_sum]
  have hvi : view_indices ({ isomorphism := P.isomorphism, weight_ := bump_all (u / ((iso_level_ : Nat) : W)) P.weight_ (view_indices P b) } : pattern W) b
      = view_indices P b := rfl
  rw [hvi]
  have hmap : (view_indices P b).map (fun s =>
        (bump_all (u / ((iso_level_ : Nat) : W)) P.weight_ (view_indices P b)).getD s 0)
      = (view_indices P b).map (fun s => P.weight_.getD s 0
          + ((view_indices P b).count s : W) * (u / ((iso_level_ : Nat) : W))) := by
    apply List.map_congr_left
    intro s hs
    exact bump_all_getD _ _ _ _ (hin s hs)
  simp only []
  rw [hmap, sum_map_add_mul, sum_count_nodup _ hnd]
  have h8 : (view_indices P b).length = 8 := by simp [view_indices]
  rw [h8]
  simp only [iso_level_]
  push_cast
  field_simp

theorem estimate_after_weight_update {W : Type} [Field W] [CharZero W]
    (net : List (pattern W)) (b : board) (us : W)
    (hin : ∀ P ∈ net, ∀ s ∈ view_indices P b, s < P.weight_.length)
    (hnd : ∀ P ∈ net, (view_indices P b).Nodup) :
    weight_agent.estimate (net.map (fun p => (p.update b us).1)) b
      = weight_agent.estimate net b + (net.length : W) * us := by
  unfold weight_agent.estimate
  rw [foldl_add_eq_sum, foldl_add_eq_sum, zero_add, zero_add, List.map_map]
  induction net with
  | nil => simp
  | cons P Ps ih =>
    have hP := estimate_after_update P b us (hin P (by simp)) (hnd P (by simp))
    have hPs := ih (fun Q hQ => hin Q (by simp [hQ])) (fun Q hQ => hnd Q (by simp [hQ]))
    simp only [List.map_cons, List.sum_cons, Function.comp_apply, hP, hPs, List.length_cons]
    push_cast
    ring

/-- C19: the terminal afterstate decays toward zero.  For an episode of one
recorded move (afterstate `a`, reward `r`, value `r + estimate(a)` as
`take_action` records it) followed by the terminal sentinel, with every view
index of `a` inside its table and the eight view indices of `a` pairwise
distinct within each pattern, the estimate of `a` after `update_episode` is
`(1 - alpha)` times the estimate before, weights being exact numbers. -/
theorem terminal_afterstate_decay {W : Type} [Field W] [CharZero W] (alpha : W)
    (net : List (pattern W)) (before a : board) (op : Nat) (r : W)
    (hin : ∀ P ∈ net, ∀ s ∈ view_indices P a, s < P.weight_.length)
    (hnd : ∀ P ∈ net, (view_indices P a).Nodup) :
    weight_agent.estimate (tdl_agent.update_episode { net := net, alpha := alpha, path_ := [{ before := before, after := a, op := op, reward := r, value := r + weight_agent.estimate net a }, state.sentinel W] }).net a
      = (1 - alpha) * weight_agent.estimate net a := by
  have hrun := update_episode_drops_last alpha net
    [{ before := before, after := a, op := op, reward := r, value := r + weight_agent.estimate net a }]
    (state.sentinel W)
  rw [List.singleton_append] at hrun
  rw [hrun]
  simp only [td_backward, List.foldr_cons, List.foldr_nil, td_step, weight_agent_update_eq]
  rw [estimate_after_weight_update net a _ hin hnd]
  by_cases hn : net = []
  · subst hn
    simp [weight_agent.estimate]
  · have hlen : ((net.length : Nat) : W) ≠ 0 := by
      have : net.length ≠ 0 := fun h => hn (List.length_eq_zero.mp h)
      exact_mod_cast this
    field_simp
    ring

set_option maxRecDepth 100000 in
theorem terminal_afterstate_decay_witness :
    (∀ P ∈ [({ isomorphism := pattern.views [1], weight_ := List.replicate 16 1 } : pattern ℚ)],
      ∀ s ∈ view_indices P board.reference, s < P.weight_.length) ∧
    (∀ P ∈ [({ isomorphism := pattern.views [1], weight_ := List.replicate 16 1 } : pattern ℚ)],
      (view_indices P board.reference).Nodup) ∧
    weight_agent.estimate (tdl_agent.update_episode { net := [({ isomorphism := pattern.views [1], weight_ := List.replicate 16 1 } : pattern ℚ)], alpha := 1 / 10, path_ := [{ before := board.empty, after := board.reference, op := 0, reward := 3, value := 3 + weight_agent.estimate [({ isomorphism := pattern.views [1], weight_ := List.replicate 16 1 } : pattern ℚ)] board.reference }, state.sentinel ℚ] }).net board.reference
      = (1 - 1 / 10) * weight_agent.estimate [({ isomorphism := pattern.views [1], weight_ := List.replicate 16 1 } : pattern ℚ)] board.reference :=
  ⟨by decide, by decide,
    terminal_afterstate_decay (1 / 10) _ board.empty board.reference 0 3 (by decide) (by decide)⟩

/-! ## Placement -/

theorem fill_bag_length (after : board) :
    (random_placer.fill_bag after).length = after.bag 1 + after.bag 2 + after.bag 3 := by
  simp [random_placer.fill_bag, Nat.add_assoc]

theorem bag_read_inside (bag : List Nat) (i : Int) (h0 : 0 ≤ i) (h1 : i < (bag.length : Int)) :
    ∃ t, random_placer.bag_read bag i = some t ∧ t ∈ bag := by
  have hidx : i.toNat < bag.length := by omega
  refine ⟨bag[i.toNat], ?_, List.getElem_mem _⟩
  rw [random_placer.bag_read, if_pos ⟨h0, h1⟩, List.getElem?_eq_getElem hidx]

theorem bag_read_outside (bag : List Nat) (i : Int) (h : i < 0) :
    random_placer.bag_read bag i = none := by
  rw [random_placer.bag_read, if_neg (by omega)]

/-- With no hint tile and fewer than two tiles in the bag, the body of the loop
reads in front of `int bag[3]`: it has no result. -/
theorem place_at_short_bag (shuffle_bag : List Nat → List Nat) (after : board)
    (pos : Nat) (hhint : after.hint = 0) (hb : ∀ l, (shuffle_bag l).Perm l)
    (hbag : after.bag 1 + after.bag 2 + after.bag 3 < 2) :
    random_placer.place_at shuffle_bag after pos = none := by
  have hlen : (shuffle_bag (random_placer.fill_bag after)).length
      = after.bag 1 + after.bag 2 + after.bag 3 := by
    rw [(hb _).length_eq, fill_bag_length]
  have hcap : ¬ 3 < (random_placer.fill_bag after).length := by
    rw [fill_bag_length]; omega
  simp only [random_placer.place_at, if_neg hcap, hhint, ne_eq, not_true_eq_false, if_false]
  by_cases h0 : after.bag 1 + after.bag 2 + after.bag 3 = 0
  · rw [bag_read_outside _ _ (by rw [hlen]; omega)]
    rfl
  · obtain ⟨t, ht, _⟩ := bag_read_inside (shuffle_bag (random_placer.fill_bag after))
      (((shuffle_bag (random_placer.fill_bag after)).length : Int) - 1)
      (by rw [hlen]; omega) (by omega)
    simp only [ht, Option.map_some']
    rw [bag_read_outside _ _ (by rw [hlen]; omega)]

/-- With more than three tiles in the bag, the body of the loop writes behind
`int bag[3]`: it has no result. -/
theorem place_at_long_bag (shuffle_bag : List Nat → List Nat) (after : board)
    (pos : Nat) (hbag : 3 < after.bag 1 + after.bag 2 + after.bag 3) :
    random_placer.place_at shuffle_bag after pos = none := by
  have hcap : 3 < (random_placer.fill_bag after).length := by
    rw [fill_bag_length]; omega
  simp only [random_placer.place_at, if_pos hcap]

theorem expand_spec (s : List Char) (A : Int) : ∀ (m : Nat) (front end_ len : Int),
    (front + 2).toNat = m →
    ∃ K : Nat, longestPalindrome.expand s A front end_ len
        = (front - 2 * K, end_ + 2 * K, len + 2 * K) ∧
      (∀ j : Nat, j < K → 0 ≤ front - 2 * j ∧ end_ + 2 * j ≤ A ∧
        char_at s ((front - 2 * j) / 2).toNat = char_at s ((end_ + 2 * j) / 2).toNat) ∧
      ¬ (0 ≤ front - 2 * K ∧ end_ + 2 * K ≤ A ∧
        char_at s ((front - 2 * K) / 2).toNat = char_at s ((end_ + 2 * K) / 2).toNat) := by
  intro m
  induction m using Nat.strong_induction_on with
  | _ m ih =>
    intro front end_ len hm
    rw [longestPalindrome.expand]
    by_cases hc : 0 ≤ front ∧ end_ ≤ A
    · rw [dif_pos hc]
      by_cases he : char_at s (front / 2).toNat = char_at s (end_ / 2).toNat
      · rw [if_pos he]
        obtain ⟨K, hK, hall, hstop⟩ := ih ((front - 2 + 2).toNat) (by omega) (front - 2)
          (end_ + 2) (len + 2) rfl
        refine ⟨K + 1, ?_, ?_, ?_⟩
        · rw [hK]
          push_cast
          simp only [Prod.mk.injEq]
          refine ⟨by ring, by ring, by ring⟩
        · intro j hj
          cases j with
          | zero => simpa using ⟨hc.1, hc.2, he⟩
          | succ j =>
            have h := hall j (by omega)
            have e1 : front - 2 * ((j + 1 : Nat) : Int) = front - 2 - 2 * (j : Int) := by
              push_cast; ring
            have e2 : end_ + 2 * ((j + 1 : Nat) : Int) = end_ + 2 + 2 * (j : Int) := by
              push_cast; ring
            rw [e1, e2]
            exact h
        · have e1 : front - 2 * ((K + 1 : Nat) : Int) = front - 2 - 2 * (K : Int) := by
            push_cast; ring
          have e2 : end_ + 2 * ((K + 1 : Nat) : Int) = end_ + 2 + 2 * (K : Int) := by
            push_cast; ring
          rw [e1, e2]
          exact hstop
      · rw [if_neg he]
        refine ⟨0, by simp, fun j hj => absurd hj (Nat.not_lt_zero j), ?_⟩
        simpa using fun _ _ => he
    · rw [dif_neg hc]
      refine ⟨0, by simp, fun j hj => absurd hj (Nat.not_lt_zero j), ?_⟩
      simp only [Nat.cast_zero, mul_zero, sub_zero, add_zero]
      intro h
      exact hc ⟨h.1, h.2.1⟩

theorem copy_spec (s : List Char) (end_ : Int) : ∀ (m : Nat) (j : Int) (idx : Nat)
    (temp : List Char), (end_ - j).toNat = m → 0 ≤ j →
    (longestPalindrome.copy s end_ j idx temp).length = temp.length ∧
    (∀ t : Nat, t < idx → (longestPalindrome.copy s end_ j idx temp).getD t (Char.ofNat 0)
      = temp.getD t (Char.ofNat 0)) ∧
    (∀ t : Nat, (j : Int) + 2 * t ≤ end_ - 2 → idx + t < temp.length →
      (longestPalindrome.copy s end_ j idx temp).getD (idx + t) (Char.ofNat 0)
        = char_at s ((j + 2 * t) / 2).toNat) := by
  intro m
  induction m using Nat.strong_induction_on with
  | _ m ih =>
    intro j idx temp hm hj
    rw [longestPalindrome.copy]
    by_cases hc : j ≤ end_ - 2
    · rw [if_pos hc]
      obtain ⟨h1, h2, h3⟩ := ih ((end_ - (j + 2)).toNat) (by omega) (j + 2) (idx + 1)
        (temp.set idx (char_at s (j / 2).toNat)) rfl (by omega)
      refine ⟨by rw [h1, List.length_set], ?_, ?_⟩
      · intro t ht
        rw [h2 t (by omega)]
        simp [List.getD_eq_getElem?_getD, List.getElem?_set_ne (show idx ≠ t by omega)]
      · intro t ht hlen
        cases t with
        | zero =>
          simp only [Nat.add_zero, Nat.cast_zero, mul_zero, add_zero] at hlen ⊢
          rw [h2 idx (by omega)]
          simp [List.getD_eq_getElem?_getD, List.getElem?_set, hlen]
        | succ t =>
          have h := h3 t (by push_cast at ht ⊢; omega)
            (by rw [List.length_set]; omega)
          have e1 : idx + (t + 1) = idx + 1 + t := by omega
          have e2 : j + 2 * ((t + 1 : Nat) : Int) = j + 2 + 2 * (t : Int) := by
            push_cast; ring
          rw [e1, e2]
          exact h
    · rw [if_neg hc]
      refine ⟨rfl, fun _ _ => rfl, ?_⟩
      intro t ht
      exfalso
      have : (0 : Int) ≤ 2 * (t : Int) := by positivity
      omega
theorem center_core (s : List Char) (a0 b0 len0 : Int) (h1 : -1 ≤ a0)
    (h2 : b0 = a0 + 1 + len0) (h3 : len0 = 0 ∨ len0 = 1) (h4 : a0 + len0 < s.length) :
    ∃ lo len : Nat,
      longestPalindrome.expand s (2 * (s.length : Int) - 1) (2 * a0) (2 * b0) len0
        = (2 * (lo : Int) - 2, 2 * ((lo : Int) + len), (len : Int)) ∧
      (2 * lo + len : Int) = a0 + b0 + 1 ∧ lo + len ≤ s.length ∧ (len0 ≤ len) ∧
      pal_at s lo len ∧
      (∀ x m : Nat, 1 ≤ m → x + m ≤ s.length → (2 * x + m : Int) = a0 + b0 + 1 →
        pal_at s x m → m ≤ len) := by
  obtain ⟨K, hK, hall, hstop⟩ := expand_spec s (2 * (s.length : Int) - 1) _ (2 * a0) (2 * b0)
    len0 rfl
  have hlo : 0 ≤ a0 + 1 - K := by
    cases K with
    | zero => simp; omega
    | succ K' =>
      have h := (hall K' (by omega)).1
      push_cast
      omega
  have hhi : a0 + len0 + K < s.length := by
    cases K with
    | zero => simpa using h4
    | succ K' =>
      have h := (hall K' (by omega)).2.1
      push_cast
      omega
  refine ⟨(a0 + 1 - K).toNat, (len0 + 2 * K).toNat, ?_, ?_, ?_, ?_, ?_, ?_⟩
  · rw [hK]
    simp only [Prod.mk.injEq]
    refine ⟨by omega, by omega, by omega⟩
  · omega
  · omega
  · omega
  · intro d hd
    -- the two positions are mirror images around the centre
    rcases Nat.lt_trichotomy ((a0 + 1 - K).toNat + d)
        ((a0 + 1 - K).toNat + (len0 + 2 * K).toNat - 1 - d) with hlt | heq | hgt
    · have hj : (a0 - ((a0 + 1 - K).toNat + d : Nat)).toNat < K := by omega
      have h := (hall _ hj).2.2
      have e1 : ((2 * a0 - 2 * ((a0 - ((a0 + 1 - K).toNat + d : Nat)).toNat : Int)) / 2).toNat
          = (a0 + 1 - K).toNat + d := by omega
      have e2 : ((2 * b0 + 2 * ((a0 - ((a0 + 1 - K).toNat + d : Nat)).toNat : Int)) / 2).toNat
          = (a0 + 1 - K).toNat + (len0 + 2 * K).toNat - 1 - d := by omega
      rw [e1, e2] at h
      exact h
    · rw [heq]
    · have hj : (a0 - ((a0 + 1 - K).toNat + (len0 + 2 * K).toNat - 1 - d : Nat)).toNat < K := by
        omega
      have h := (hall _ hj).2.2
      have e1 : ((2 * a0 - 2 * ((a0 - ((a0 + 1 - K).toNat + (len0 + 2 * K).toNat - 1 - d : Nat)).toNat : Int)) / 2).toNat
          = (a0 + 1 - K).toNat + (len0 + 2 * K).toNat - 1 - d := by omega
      have e2 : ((2 * b0 + 2 * ((a0 - ((a0 + 1 - K).toNat + (len0 + 2 * K).toNat - 1 - d : Nat)).toNat : Int)) / 2).toNat
          = (a0 + 1 - K).toNat + d := by omega
      rw [e1, e2] at h
      exact h.symm
  · intro x m hm hxm hcen hpal
    by_contra hgt
    apply hstop
    have hd : (a0 - K - x).toNat < m := by omega
    have h := hpal _ hd
    have e1 : ((2 * a0 - 2 * (K : Int)) / 2).toNat = x + (a0 - K - x).toNat := by omega
    have e2 : ((2 * b0 + 2 * (K : Int)) / 2).toNat = x + m - 1 - (a0 - K - x).toNat := by omega
    refine ⟨by omega, by omega, ?_⟩
    rw [e1, e2]
    exact h
theorem scan_inv_step (s : List Char) (i : Nat) (max_len : Int) (temp : List Char)
    (lo' len' : Nat) (hinv : scan_inv s i max_len temp)
    (hcen : 2 * lo' + len' = i + 1) (hle : lo' + len' ≤ s.length) (hpal : pal_at s lo' len')
    (hmax : ∀ x m : Nat, 1 ≤ m → x + m ≤ s.length → 2 * x + m = i + 1 → pal_at s x m →
      m ≤ len') :
    ((len' : Int) > max_len →
      scan_inv s (i + 1) (len' : Int)
        (longestPalindrome.copy s (2 * ((lo' : Int) + len')) (2 * (lo' : Int) - 2 + 2) 0 temp)) ∧
    (¬ (len' : Int) > max_len → scan_inv s (i + 1) max_len temp) := by
  obtain ⟨lo, len, hml, h1, hlen, htemp, hci, hcopy, hp, hall, hfirst⟩ := hinv
  constructor
  · intro hgt
    have hgt' : len < len' := by omega
    obtain ⟨c1, _, c3⟩ := copy_spec s (2 * ((lo' : Int) + len')) _ (2 * (lo' : Int) - 2 + 2) 0
      temp rfl (by omega)
    refine ⟨lo', len', rfl, by omega, hle, by rw [c1, htemp], by omega, ?_, hpal, ?_, ?_⟩
    · intro d hd
      have h := c3 d (by omega) (by omega)
      have e : ((2 * (lo' : Int) - 2 + 2 + 2 * (d : Int)) / 2).toNat = lo' + d := by omega
      rw [Nat.zero_add, e] at h
      exact h
    · intro x m hm hxm hc hpx
      rcases Nat.lt_or_ge (2 * x + m) (i + 1) with hlt | hge
      · have := hall x m hm hxm hlt hpx
        omega
      · exact hmax x m hm hxm (by omega) hpx
    · intro x m hm hxm hc hpx
      have := hall x m hm hxm (by omega) hpx
      omega
  · intro hle'
    refine ⟨lo, len, hml, h1, hlen, htemp, by omega, hcopy, hp, ?_, hfirst⟩
    intro x m hm hxm hc hpx
    rcases Nat.lt_or_ge (2 * x + m) (i + 1) with hlt | hge
    · exact hall x m hm hxm hlt hpx
    · have := hmax x m hm hxm (by omega) hpx
      omega

theorem centre_start (s : List Char) (i : Nat) (hi : i + 1 < 2 * s.length) :
    ∃ lo len : Nat,
      longestPalindrome.expand s (2 * (s.length : Int) - 1)
          (if (i : Int) % 2 = 0 then ((i : Int) - 2, (i : Int) + 2, (1 : Int))
            else ((i : Int) - 1, (i : Int) + 1, (0 : Int))).1
          (if (i : Int) % 2 = 0 then ((i : Int) - 2, (i : Int) + 2, (1 : Int))
            else ((i : Int) - 1, (i : Int) + 1, (0 : Int))).2.1
          (if (i : Int) % 2 = 0 then ((i : Int) - 2, (i : Int) + 2, (1 : Int))
            else ((i : Int) - 1, (i : Int) + 1, (0 : Int))).2.2
        = (2 * (lo : Int) - 2, 2 * ((lo : Int) + len), (len : Int)) ∧
      2 * lo + len = i + 1 ∧ lo + len ≤ s.length ∧ pal_at s lo len ∧
      (∀ x m : Nat, 1 ≤ m → x + m ≤ s.length → 2 * x + m = i + 1 → pal_at s x m → m ≤ len) := by
  by_cases hpar : (i : Int) % 2 = 0
  · obtain ⟨lo, len, hexp, hc, hle, _, hpal, hmax⟩ := center_core s ((i : Int) / 2 - 1)
      ((i : Int) / 2 + 1) 1 (by omega) (by ring) (Or.inr rfl) (by omega)
    refine ⟨lo, len, ?_, by omega, hle, hpal, ?_⟩
    · rw [if_pos hpar]
      have e1 : (i : Int) - 2 = 2 * ((i : Int) / 2 - 1) := by omega
      have e2 : (i : Int) + 2 = 2 * ((i : Int) / 2 + 1) := by omega
      simp only []
      rw [e1, e2]
      exact hexp
    · intro x m hm hxm hcx hpx
      exact hmax x m hm hxm (by omega) hpx
  · obtain ⟨lo, len, hexp, hc, hle, _, hpal, hmax⟩ := center_core s ((i : Int) / 2)
      ((i : Int) / 2 + 1) 0 (by omega) (by ring) (Or.inl rfl) (by omega)
    refine ⟨lo, len, ?_, by omega, hle, hpal, ?_⟩
    · rw [if_neg hpar]
      have e1 : (i : Int) - 1 = 2 * ((i : Int) / 2) := by omega
      have e2 : (i : Int) + 1 = 2 * ((i : Int) / 2 + 1) := by omega
      simp only []
      rw [e1, e2]
      exact hexp
    · intro x m hm hxm hcx hpx
      exact hmax x m hm hxm (by omega) hpx

theorem scan_spec (s : List Char) : ∀ (k i : Nat) (max_len : Int) (temp : List Char),
    i + k + 1 = 2 * s.length → scan_inv s i max_len temp →
    scan_inv s (2 * s.length - 1)
      (longestPalindrome.scan s (2 * (s.length : Int) - 1) (i : Int) max_len temp).1
      (longestPalindrome.scan s (2 * (s.length : Int) - 1) (i : Int) max_len temp).2 := by
  intro k
  induction k with
  | zero =>
    intro i max_len temp hik hinv
    rw [longestPalindrome.scan, if_neg (by omega)]
    have : 2 * s.length - 1 = i := by omega
    rw [this]
    exact hinv
  | succ k ih =>
    intro i max_len temp hik hinv
    obtain ⟨lo, len, hexp, hcen, hle, hpal, hmax⟩ := centre_start s i (by omega)
    obtain ⟨hyes, hno⟩ := scan_inv_step s i max_len temp lo len hinv hcen hle hpal hmax
    rw [longestPalindrome.scan, if_pos (by omega)]
    simp only []
    rw [hexp]
    simp only []
    by_cases hgt : (len : Int) > max_len
    · rw [if_pos hgt]
      have h := ih (i + 1) (len : Int) _ (by omega) (hyes hgt)
      push_cast at h
      exact h
    · rw [if_neg hgt]
      have h := ih (i + 1) max_len temp (by omega) (hno hgt)
      push_cast at h
      exact h
theorem sub_get_some (s : List Char) (a m d : Nat) (ha : a + m ≤ s.length) (hd : d < m) :
    ((s.drop a).take m)[d]? = some (char_at s (a + d)) := by
  have h1 : a + d < s.length := by omega
  simp [List.getElem?_take, hd, char_at, List.getD_eq_getElem?_getD, List.getElem?_eq_getElem h1]

theorem sub_length (s : List Char) (a m : Nat) (ha : a + m ≤ s.length) :
    ((s.drop a).take m).length = m := by
  simp
  omega

theorem sub_reverse_iff (s : List Char) (a m : Nat) (ha : a + m ≤ s.length) :
    ((s.drop a).take m).reverse = (s.drop a).take m ↔ pal_at s a m := by
  constructor
  · intro h d hd
    have h1 := sub_get_some s a m d ha hd
    have h2 := sub_get_some s a m (m - 1 - d) ha (by omega)
    have h3 : ((s.drop a).take m).reverse[d]? = ((s.drop a).take m)[m - 1 - d]? := by
      rw [List.getElem?_reverse (by rw [sub_length s a m ha]; exact hd), sub_length s a m ha]
    rw [h] at h3
    rw [h1, h2] at h3
    have h4 := Option.some.inj h3
    rw [h4]
    congr 1
    omega
  · intro h
    apply List.ext_getElem?
    intro d
    by_cases hd : d < m
    · rw [List.getElem?_reverse (by rw [sub_length s a m ha]; exact hd), sub_length s a m ha,
        sub_get_some s a m d ha hd, sub_get_some s a m (m - 1 - d) ha (by omega), h d hd]
      congr 2
      omega
    · rw [List.getElem?_eq_none (by rw [List.length_reverse, sub_length s a m ha]; omega),
        List.getElem?_eq_none (by rw [sub_length s a m ha]; omega)]

theorem take_eq_sub (s temp : List Char) (lo len : Nat) (ht : temp.length = s.length)
    (hle : lo + len ≤ s.length)
    (h : ∀ d, d < len → temp.getD d (Char.ofNat 0) = char_at s (lo + d)) :
    temp.take len = (s.drop lo).take len := by
  apply List.ext_getElem?
  intro d
  by_cases hd : d < len
  · rw [sub_get_some s lo len d hle hd, ← h d hd]
    have hdt : d < temp.length := by omega
    simp [List.getElem?_take, hd, List.getD_eq_getElem?_getD, List.getElem?_eq_getElem hdt]
  · rw [List.getElem?_eq_none (by rw [List.length_take]; omega),
      List.getElem?_eq_none (by rw [sub_length s lo len hle]; omega)]

theorem scan_inv_start (s : List Char) (hs : 1 ≤ s.length) :
    scan_inv s 0 1 ((List.replicate s.length (Char.ofNat 0)).set 0 (char_at s 0)) := by
  refine ⟨0, 1, rfl, le_refl 1, by omega, by simp, by omega, ?_, ?_, ?_, ?_⟩
  · intro d hd
    have hd0 : d = 0 := by omega
    subst hd0
    have hpos : 0 < s.length := hs
    simp [List.getD_eq_getElem?_getD, List.getElem?_set, hpos]
  · intro d hd
    have hd0 : d = 0 := by omega
    subst hd0
    rfl
  · intro x m hm _ hc
    omega
  · intro x m hm _ hc
    omega

/-- C20: `longestPalindrome` finds a longest palindromic substring.  For a
non-empty string `s` the `max_len` characters produced read the same forwards
and backwards, are the characters of `s` from some position `lo` on (and no
earlier position starts a palindrome of that length), and every contiguous
substring of `s` that is a palindrome is at most as long. -/
theorem longestPalindrome_longest (s : List Char) (hs : s ≠ []) :
    (longestPalindrome s).reverse = longestPalindrome s ∧
    1 ≤ (longestPalindrome s).length ∧
    (∃ lo, lo + (longestPalindrome s).length ≤ s.length ∧
      longestPalindrome s = (s.drop lo).take (longestPalindrome s).length ∧
      ∀ a, a < lo → a + (longestPalindrome s).length ≤ s.length →
        ((s.drop a).take (longestPalindrome s).length).reverse
          ≠ (s.drop a).take (longestPalindrome s).length) ∧
    (∀ a m, a + m ≤ s.length → ((s.drop a).take m).reverse = (s.drop a).take m →
      m ≤ (longestPalindrome s).length) := by
  have hn : 1 ≤ s.length := List.length_pos.mpr hs
  have hinv := scan_spec s (2 * s.length - 1) 0 1 _ (by omega) (scan_inv_start s hn)
  obtain ⟨lo, len, hml, h1, hle, htemp, _, hcopy, hpal, hall, hfirst⟩ := hinv
  have hres : longestPalindrome s = (s.drop lo).take len := by
    unfold longestPalindrome
    simp only []
    have hcast : ((0 : Nat) : Int) = 0 := rfl
    rw [hcast] at hml
    rw [hml, Int.toNat_ofNat]
    exact take_eq_sub s _ lo len htemp hle hcopy
  have hlen : (longestPalindrome s).length = len := by
    rw [hres, sub_length s lo len hle]
  rw [hlen]
  refine ⟨?_, h1, ⟨lo, hle, hres, ?_⟩, ?_⟩
  · rw [hres]
    exact (sub_reverse_iff s lo len hle).mpr hpal
  · intro a ha hale hrev
    have hp := (sub_reverse_iff s a len hale).mp hrev
    have := hfirst a len h1 hale (by omega) hp
    omega
  · intro a m ham hrev
    rcases Nat.eq_zero_or_pos m with h0 | hpos
    · omega
    · have hp := (sub_reverse_iff s a m ham).mp hrev
      exact hall a m hpos ham (by omega) hp

theorem longestPalindrome_longest_witness :
    "babad".toList ≠ [] ∧
    (longestPalindrome "babad".toList).reverse = longestPalindrome "babad".toList :=
  ⟨by decide, (longestPalindrome_longest "babad".toList (by decide)).1⟩

/-! ## The arithmetic of `float` -/

theorem binary32.round_of (m : ℚ) (e f : Int) (he : -126 ≤ e)
    (hlo : (2 : ℚ) ^ e ≤ m) (hhi : m < (2 : ℚ) ^ (e + 1))
    (hf1 : (f : ℚ) ≤ m / 2 ^ (e - 23)) (hf2 : m / 2 ^ (e - 23) < f + 1) :
    binary32.round m
      = ((if m / 2 ^ (e - 23) - f < 1 / 2 then f
          else if 1 / 2 < m / 2 ^ (e - 23) - f then f + 1
          else if f % 2 = 0 then f else f + 1 : Int) : ℚ) * 2 ^ (e - 23) := by
  have hpos : 0 < m := lt_of_lt_of_le (zpow_pos (by norm_num) e) hlo
  have hlog : Int.log 2 m = e := by
    apply le_antisymm
    · have := (Int.lt_zpow_iff_log_lt (b := 2) (by norm_num) hpos).mp (by exact_mod_cast hhi)
      omega
    · exact (Int.zpow_le_iff_le_log (b := 2) (by norm_num) hpos).mp (by exact_mod_cast hlo)
  have hfl : Int.floor (m / 2 ^ (e - 23)) = f := by
    rw [Int.floor_eq_iff]
    exact ⟨hf1, hf2⟩
  unfold binary32.round
  rw [if_neg (ne_of_gt hpos)]
  simp only [hlog, max_eq_left he, hfl]

theorem binary32.round_one : binary32.round 1 = 1 := by
  rw [binary32.round_of 1 0 (2 ^ 23) (by norm_num) (by norm_num) (by norm_num)
    (by norm_num) (by norm_num)]
  norm_num

theorem binary32.round_eight : binary32.round 8 = 8 := by
  rw [binary32.round_of 8 3 (2 ^ 23) (by norm_num) (by norm_num) (by norm_num)
    (by norm_num) (by norm_num)]
  norm_num

theorem binary32.round_tie : binary32.round (2 ^ 24 + 1) = 2 ^ 24 := by
  rw [binary32.round_of (2 ^ 24 + 1) 24 (2 ^ 23) (by norm_num) (by norm_num) (by norm_num)
    (by norm_num) (by norm_num)]
  norm_num

theorem binary32.round_zero : binary32.round 0 = 0 := by
  simp [binary32.round]

theorem binary32.natCast_eight : ((iso_level_ : Nat) : binary32) = binary32.finite false 8 := by
  show binary32.of_rat false ((8 : Nat) : ℚ) = binary32.finite false 8
  have h : ((8 : Nat) : ℚ) = 8 := by norm_num
  rw [h, binary32.of_rat, binary32.round_eight, if_neg (by norm_num [FLT_MAX])]

theorem binary32.intCast_zero : ((0 : Int) : binary32) = 0 := by
  show binary32.of_rat (decide ((0 : Int) < 0)) |((0 : Int) : ℚ)| = binary32.finite false 0
  simp only [Int.cast_zero, abs_zero, lt_self_iff_false, decide_False, binary32.of_rat,
    binary32.round_zero]
  rw [if_neg (by norm_num [FLT_MAX])]

theorem binary32.eight_div_eight :
    binary32.finite false 8 / ((iso_level_ : Nat) : binary32) = binary32.finite false 1 := by
  rw [binary32.natCast_eight]
  show binary32.div (binary32.finite false 8) (binary32.finite false 8) = _
  have h : (8 : ℚ) / 8 = 1 := by norm_num
  simp only [binary32.div, if_neg (show (8 : ℚ) ≠ 0 by norm_num), h, binary32.of_rat,
    binary32.round_one, Bool.xor_self]
  rw [if_neg (by norm_num [FLT_MAX])]

theorem binary32.large_add_one :
    binary32.finite false (2 ^ 24) + binary32.finite false 1 = binary32.finite false (2 ^ 24) := by
  show binary32.add (binary32.finite false (2 ^ 24)) (binary32.finite false 1) = _
  have h1 : ((2 : ℚ) ^ 24 + 1 = 0) = False := by norm_num
  have h2 : |(2 : ℚ) ^ 24 + 1| = 2 ^ 24 + 1 := abs_of_pos (by norm_num)
  have h3 : decide ((2 : ℚ) ^ 24 + 1 < 0) = false := by
    rw [decide_eq_false_iff_not]; norm_num
  simp only [binary32.add, binary32.value, Bool.false_eq_true, if_false, h1, h2, h3,
    binary32.of_rat, binary32.round_tie]
  rw [if_neg (by norm_num [FLT_MAX])]

theorem binary32.zero_add_zero : (0 : binary32) + 0 = 0 := by
  show binary32.add (binary32.finite false 0) (binary32.finite false 0) = binary32.finite false 0
  simp [binary32.add, binary32.value]

theorem binary32.add_nan (x : binary32) : x + binary32.nan = binary32.nan := by
  show binary32.add x binary32.nan = binary32.nan
  cases x <;> rfl

theorem binary32.nan_add (x : binary32) : binary32.nan + x = binary32.nan := by
  show binary32.add binary32.nan x = binary32.nan
  cases x <;> rfl

theorem binary32.not_lt_nan (x : binary32) : ¬ x < binary32.nan := by
  show ¬ binary32.lt x binary32.nan = true
  cases x <;> simp [binary32.lt]

theorem binary32.not_nan_lt (x : binary32) : ¬ binary32.nan < x := by
  show ¬ binary32.lt binary32.nan x = true
  cases x <;> simp [binary32.lt]

theorem binary32.lt_irrefl32 (x : binary32) : ¬ x < x := by
  show ¬ binary32.lt x x = true
  cases x <;> simp [binary32.lt]

theorem binary32.lt_trans32 (x y z : binary32) (h1 : x < y) (h2 : y < z) : x < z := by
  change binary32.lt x y = true at h1
  change binary32.lt y z = true at h2
  show binary32.lt x z = true
  cases x <;> cases y <;> cases z <;> simp_all [binary32.lt]
  exact lt_trans h1 h2

theorem binary32.lt_cmp (x y z : binary32) (hy : y.is_number) (h : x < z) :
    x < y ∨ y < z := by
  change binary32.lt x z = true at h
  show binary32.lt x y = true ∨ binary32.lt y z = true
  cases x <;> cases y <;> cases z <;> simp_all [binary32.lt, binary32.is_number]
  rename_i s m t n r k
  rcases lt_or_le (binary32.finite s m).value (binary32.finite t n).value with h1 | h1
  · exact Or.inl h1
  · exact Or.inr (lt_of_le_of_lt h1 h)

/-! ## Move selection over `float` -/

theorem estimate_fold {W : Type} [Zero W] [Add W] (P : pattern W) (b : board) :
    P.estimate b = (view_indices P b).foldl (fun value s => value + P.weight_.getD s 0) 0 := by
  unfold pattern.estimate view_indices
  rw [List.foldl_map]

theorem foldl_add_zero32 {α : Type} (l : List α) :
    l.foldl (fun (value : binary32) (_ : α) => value + 0) 0 = 0 := by
  induction l with
  | nil => rfl
  | cons x xs ih => rw [List.foldl_cons, binary32.zero_add_zero, ih]

theorem foldl_add_nan32 (f : Nat → binary32) (l : List Nat) :
    l.foldl (fun (value : binary32) s => value + f s) binary32.nan = binary32.nan := by
  induction l with
  | nil => rfl
  | cons x xs ih => rw [List.foldl_cons, binary32.nan_add, ih]

theorem estimate_zero_table32 (iso : Fin 8 → List Nat) (n : Nat) (b : board) :
    pattern.estimate { isomorphism := iso, weight_ := List.replicate n (0 : binary32) } b = 0 := by
  rw [estimate_fold]
  simp only [getD_replicate_zero]
  exact foldl_add_zero32 _

theorem estimate_net_with_nan_single :
    weight_agent.estimate net_with_nan board.single = binary32.nan := by
  have hvi : view_indices ({ isomorphism := pattern.views [0, 1, 2, 3, 4, 5], weight_ := (List.replicate (16 ^ 6) 0).set 16 binary32.nan } : pattern binary32) board.single
      = [16, 0, 0, 0, 256, 0, 0, 65536] := view_indices_single
  have h1 : pattern.estimate ({ isomorphism := pattern.views [0, 1, 2, 3, 4, 5], weight_ := (List.replicate (16 ^ 6) 0).set 16 binary32.nan } : pattern binary32) board.single
      = binary32.nan := by
    rw [estimate_fold, hvi, List.foldl_cons,
      getD_set_replicate (16 ^ 6) 16 16 binary32.nan (by norm_num), if_pos rfl,
      binary32.add_nan]
    exact foldl_add_nan32 _ _
  simp only [weight_agent.estimate, net_with_nan, List.foldl_cons, List.foldl_nil, h1,
    binary32.nan_add, binary32.add_nan]

theorem estimate_net_with_nan_empty :
    weight_agent.estimate net_with_nan board.empty = 0 := by
  have h1 : pattern.estimate ({ isomorphism := pattern.views [0, 1, 2, 3, 4, 5], weight_ := (List.replicate (16 ^ 6) 0).set 16 binary32.nan } : pattern binary32) board.empty
      = 0 := by
    rw [estimate_fold]
    simp only [view_indices, indexof_empty, List.foldl_map,
      getD_set_replicate (16 ^ 6) 16 0 binary32.nan (by norm_num),
      if_neg (show ¬ (0 = 16) by decide)]
    exact foldl_add_zero32 _
  simp only [weight_agent.estimate, net_with_nan, List.foldl_cons, List.foldl_nil, h1,
    estimate_zero_table32, binary32.zero_add_zero]

theorem max_element_nan_first (value : Fin 4 → binary32) (h : value 0 = binary32.nan) :
    max_element value = 0 := by
  simp [max_element, h, binary32.not_nan_lt]

theorem candidate_value_two_boards :
    candidate_value slide_two_boards ninf32 net_with_nan board.empty 0 = binary32.nan ∧
    candidate_value slide_two_boards ninf32 net_with_nan board.empty 1 = 0 := by
  constructor
  · show (((0 : Int) : binary32)) + weight_agent.estimate net_with_nan board.single = _
    rw [estimate_net_with_nan_single, binary32.add_nan]
  · show (((0 : Int) : binary32)) + weight_agent.estimate net_with_nan board.empty = _
    rw [estimate_net_with_nan_empty, binary32.intCast_zero, binary32.zero_add_zero]

theorem ninf32_lt_zero : ninf32 < (0 : binary32) := by
  show binary32.lt (binary32.finite true FLT_MAX) (binary32.finite false 0) = true
  simp only [binary32.lt, binary32.value, if_true, Bool.false_eq_true, if_false,
    decide_eq_true_eq]
  norm_num [FLT_MAX]

/-- C4, counterexample to the claim as stated.  Over exact numbers: operators
`0` and `1` are legal, both totals are exactly `-FLT_MAX`, and `take_action`
returns the no-op action rather than a slide.  Over `float`: operators `0` and
`1` are legal, the total of operator `0` is a NaN and the total of operator `1`
is `0`, above `ninf`; the scan of `max_element` stays at operator `0`, the test
`*max_value > ninf` fails, and `take_action` returns the no-op action. -/
theorem take_action_selects_counterexample :
    ((slide_two_legal board.empty 0).2 ≠ -1 ∧
      (∀ d : Nat, (tdl_agent.take_action slide_two_legal (-FLT_MAX)
          { net := net_at_limit, alpha := 1 / 10, path_ := [] } board.empty).2 ≠ action.slide d) ∧
      (tdl_agent.take_action slide_two_legal (-FLT_MAX)
          { net := net_at_limit, alpha := 1 / 10, path_ := [] } board.empty).1.path_
        = [state.sentinel ℚ]) ∧
    ((slide_two_boards board.empty 0).2 ≠ -1 ∧ (slide_two_boards board.empty 1).2 ≠ -1 ∧
      ((((slide_two_boards board.empty 0).2 : Int) : binary32)
        + weight_agent.estimate net_with_nan (slide_two_boards board.empty 0).1) = binary32.nan ∧
      ninf32 < (((slide_two_boards board.empty 1).2 : Int) : binary32)
        + weight_agent.estimate net_with_nan (slide_two_boards board.empty 1).1 ∧
      (tdl_agent.take_action slide_two_boards ninf32
          { net := net_with_nan, alpha := 0, path_ := [] } board.empty).2 = action.noop ∧
      (tdl_agent.take_action slide_two_boards ninf32
          { net := net_with_nan, alpha := 0, path_ := [] } board.empty).1.path_
        = [state.sentinel binary32]) := by
  have hres := take_action_sentinel slide_two_legal (-FLT_MAX)
      { net := net_at_limit, alpha := 1 / 10, path_ := [] } board.empty (by
        intro i hi
        have hi1 : i.val ≤ 1 := by
          by_contra hne
          apply hi
          simp [slide_two_legal, hne]
        show (((slide_two_legal board.empty i.val).2 : Int) : ℚ)
          + weight_agent.estimate net_at_limit (slide_two_legal board.empty i.val).1 ≤ -FLT_MAX
        have e1 : (slide_two_legal board.empty i.val) = (board.single, 0) := by
          simp [slide_two_legal, hi1]
        rw [e1, estimate_net_at_limit]
        norm_num)
  have hnan : (tdl_agent.take_action slide_two_boards ninf32
      { net := net_with_nan, alpha := 0, path_ := [] } board.empty)
      = ({ net := net_with_nan, alpha := 0, path_ := [] ++ [state.sentinel binary32] },
          action.noop) := by
    rw [take_action_eq,
      max_element_nan_first _ candidate_value_two_boards.1, candidate_value_two_boards.1,
      if_neg (binary32.not_lt_nan _)]
  refine ⟨⟨by decide, ?_, ?_⟩, by decide, by decide, candidate_value_two_boards.1, ?_, ?_, ?_⟩
  · intro d
    rw [hres]
    exact fun hc => action.noConfusion hc
  · rw [hres]; rfl
  · have h := candidate_value_two_boards.2
    have h' : (((slide_two_boards board.empty 1).2 : Int) : binary32)
        + weight_agent.estimate net_with_nan (slide_two_boards board.empty 1).1 = 0 := h
    rw [h']
    exact ninf32_lt_zero
  · rw [hnan]
  · rw [hnan]; rfl

theorem take_action_selects_first_maximum_witness :
    binary32.is_number ninf32 ∧
    (∃ i : Fin 4, (slide_two_boards board.empty i.val).2 ≠ -1 ∧
      ninf32 < (((slide_two_boards board.empty i.val).2 : Int) : binary32)
        + weight_agent.estimate ([] : List (pattern binary32))
            (slide_two_boards board.empty i.val).1) ∧
    ∃ d : Fin 4, (slide_two_boards board.empty d.val).2 ≠ -1 ∧
      (tdl_agent.take_action slide_two_boards ninf32
        { net := ([] : List (pattern binary32)), alpha := 0, path_ := [] } board.empty).2
        = action.slide d.val :=
  have htot : ∀ i : Fin 4, (slide_two_boards board.empty i.val).2 ≠ -1 →
      (((slide_two_boards board.empty i.val).2 : Int) : binary32)
        + weight_agent.estimate ([] : List (pattern binary32))
            (slide_two_boards board.empty i.val).1 = 0 := by
    intro i hi
    have hr : (slide_two_boards board.empty i.val).2 = 0 := by
      revert hi
      revert i
      decide
    rw [hr, binary32.intCast_zero]
    exact binary32.zero_add_zero
  have h : ∃ i : Fin 4, (slide_two_boards board.empty i.val).2 ≠ -1 ∧
      ninf32 < (((slide_two_boards board.empty i.val).2 : Int) : binary32)
        + weight_agent.estimate ([] : List (pattern binary32))
            (slide_two_boards board.empty i.val).1 :=
    ⟨0, by decide, by rw [htot 0 (by decide)]; exact ninf32_lt_zero⟩
  ⟨trivial, h, (take_action_selects_first_maximum slide_two_boards ninf32
      { net := ([] : List (pattern binary32)), alpha := 0, path_ := [] } board.empty
      binary32.is_number (fun x _ => binary32.lt_irrefl32 x)
      (fun x y z _ _ _ => binary32.lt_trans32 x y z)
      (fun x y z _ hy _ => binary32.lt_cmp x y z hy) trivial
      (fun i hi => by rw [htot i hi]; trivial) h).imp
      (fun _ hd => ⟨hd.1, hd.2.2.2.1⟩)⟩

/-! ## The effect of `update` over `float` -/

theorem update_large_fold (l : List (Fin 8)) (acc : binary32) :
    (l.foldl (fun (st : pattern binary32 × binary32) (_ : Fin 8) =>
        (({ isomorphism := st.1.isomorphism, weight_ := st.1.weight_.set 0 (st.1.weight_.getD 0 0 + binary32.finite false 8 / ((iso_level_ : Nat) : binary32)) } : pattern binary32),
          st.2 + (st.1.weight_.set 0 (st.1.weight_.getD 0 0 + binary32.finite false 8 / ((iso_level_ : Nat) : binary32))).getD 0 0))
        (pattern_large, acc)).1 = pattern_large := by
  induction l generalizing acc with
  | nil => rfl
  | cons x xs ih =>
    rw [List.foldl_cons]
    have hstep : ({ isomorphism := pattern_large.isomorphism, weight_ := pattern_large.weight_.set 0 (pattern_large.weight_.getD 0 0 + binary32.finite false 8 / ((iso_level_ : Nat) : binary32)) } : pattern binary32) = pattern_large := by
      rw [binary32.eight_div_eight]
      show ({ isomorphism := pattern_large.isomorphism, weight_ := (binary32.finite false (2 ^ 24) + binary32.finite false 1) :: List.replicate 15 0 } : pattern binary32) = pattern_large
      rw [binary32.large_add_one]
      rfl
    simp only [hstep]
    exact ih _

/-- C2, counterexample to the claim as stated: in `float` arithmetic, for the
pattern `pattern_large` of the 1-tuple `[0]`, whose slot `0` holds
`16777216 = 2 ^ 24`, the empty board and `u = 8`: all eight views have index
`0`, `u / 8` is `1`, each of the eight additions `weight_[0] += 1` rounds back
to `2 ^ 24`, and after `update` the table is what it was, whereas the old
weight plus `c(0) * u / 8` is `2 ^ 24 + 8`. -/
theorem update_effect_counterexample :
    (∀ q, board.empty.tile q < 16) ∧
    view_count pattern_large board.empty 0 = 8 ∧
    (pattern_large.weight_.getD 0 0).value = 2 ^ 24 ∧
    binary32.finite false 8 / ((iso_level_ : Nat) : binary32) = binary32.finite false 1 ∧
    (pattern_large.update board.empty (binary32.finite false 8)).1.weight_
      = pattern_large.weight_ ∧
    ((pattern_large.update board.empty (binary32.finite false 8)).1.weight_.getD 0 0).value
      ≠ (pattern_large.weight_.getD 0 0).value
        + (view_count pattern_large board.empty 0 : ℚ) * ((binary32.finite false 8).value / 8) := by
  have hupd : (pattern_large.update board.empty (binary32.finite false 8)).1 = pattern_large := by
    rw [update_empty_fold]
    exact update_large_fold _ _
  have hc : view_count pattern_large board.empty 0 = 8 := by
    simp [view_count, view_indices, indexof_empty]
  have hv : (pattern_large.weight_.getD 0 0).value = 2 ^ 24 := by
    show (binary32.finite false (2 ^ 24)).value = 2 ^ 24
    simp [binary32.value]
  refine ⟨fun q => by simp [board.empty], hc, hv, binary32.eight_div_eight, by rw [hupd], ?_⟩
  rw [hupd, hc, hv]
  norm_num [binary32.value]

end TCG
